import Mathlib

/-!
Verification of nasmlib.h: byte writers, severity codes, numeral reading,
sorted-array search and the source-location tracker

A shallow embedding of the macros and constants of `nasmlib.h`.

* Memory is a byte-addressed map from addresses to byte values; a write
  cursor is the pair of the memory and the pointer `p` the macros advance.
* Integer arguments are natural numbers; every conversion to a fixed-width
  unsigned type (`uint8_t _wc_v = (v)`, ...) is an explicit reduction modulo
  `2 ^ width`.
* `X86_MEMORY` and the byte order of the executing host come from
  `compiler.h`, which is not part of `nasmlib.h`; both are parameters.
* Functions that `nasmlib.h` only declares (`readnum`, `readstrnum`, the
  `fwrite*` stream writers, `bsi`, `bsii`, `src_get` and the setters) are
  modelled from the specification; their doc comments say so.
-/

namespace Nasmlib

/-! ## Memory and integer conversions -/

/-- Byte-addressed memory: the value stored at each address. -/
abbrev Mem := Nat → Nat

/-- Store of one byte `b` at address `a` (the assignment `q[0] = b` through a
`uint8_t *`). -/
def Mem.set (m : Mem) (a b : Nat) : Mem := fun x => if x = a then b else m x

/-- State the write macros act on: the memory and the cursor `p`. -/
@[ext]
structure Cursor where
  mem : Mem
  p : Nat

/-- Conversion to `uint8_t`. -/
def uint8 (v : Nat) : Nat := v % 2 ^ 8

/-- Conversion to `uint16_t`. -/
def uint16 (v : Nat) : Nat := v % 2 ^ 16

/-- Conversion to `uint32_t`. -/
def uint32 (v : Nat) : Nat := v % 2 ^ 32

/-- Conversion to `uint64_t`. -/
def uint64 (v : Nat) : Nat := v % 2 ^ 64

/-! ## Portable writers (`#else` branch of `#if X86_MEMORY`) -/

/-- Portable `WRITECHAR(p,v)`:
`_wc_p = p; uint8_t _wc_v = v; _wc_p[0] = _wc_v; p = _wc_p + 1`. -/
def WRITECHAR (c : Cursor) (v : Nat) : Cursor :=
  let wc_p := c.p
  let wc_v := uint8 v
  let m0 := c.mem.set (wc_p + 0) wc_v
  { mem := m0, p := wc_p + 1 }

/-- Portable `WRITESHORT(p,v)`: `uint16_t _ws_v = v`, then the two byte stores
`_ws_p[0] = _ws_v; _ws_p[1] = _ws_v >> 8`, each converting to `uint8_t`. -/
def WRITESHORT (c : Cursor) (v : Nat) : Cursor :=
  let ws_p := c.p
  let ws_v := uint16 v
  let m0 := c.mem.set (ws_p + 0) (uint8 ws_v)
  let m1 := m0.set (ws_p + 1) (uint8 (ws_v >>> 8))
  { mem := m1, p := ws_p + 2 }

/-- Portable `WRITELONG(p,v)`: `uint32_t _wl_v = v` and four byte stores. -/
def WRITELONG (c : Cursor) (v : Nat) : Cursor :=
  let wl_p := c.p
  let wl_v := uint32 v
  let m0 := c.mem.set (wl_p + 0) (uint8 wl_v)
  let m1 := m0.set (wl_p + 1) (uint8 (wl_v >>> 8))
  let m2 := m1.set (wl_p + 2) (uint8 (wl_v >>> 16))
  let m3 := m2.set (wl_p + 3) (uint8 (wl_v >>> 24))
  { mem := m3, p := wl_p + 4 }

/-- Portable `WRITEDLONG(p,v)`: `uint64_t _wq_v = v` and eight byte stores. -/
def WRITEDLONG (c : Cursor) (v : Nat) : Cursor :=
  let wq_p := c.p
  let wq_v := uint64 v
  let m0 := c.mem.set (wq_p + 0) (uint8 wq_v)
  let m1 := m0.set (wq_p + 1) (uint8 (wq_v >>> 8))
  let m2 := m1.set (wq_p + 2) (uint8 (wq_v >>> 16))
  let m3 := m2.set (wq_p + 3) (uint8 (wq_v >>> 24))
  let m4 := m3.set (wq_p + 4) (uint8 (wq_v >>> 32))
  let m5 := m4.set (wq_p + 5) (uint8 (wq_v >>> 40))
  let m6 := m5.set (wq_p + 6) (uint8 (wq_v >>> 48))
  let m7 := m6.set (wq_p + 7) (uint8 (wq_v >>> 56))
  { mem := m7, p := wq_p + 8 }

/-- The loop `while (_wa_s--) { WRITECHAR(p,_wa_v); _wa_v >>= 8; }` of the
portable `WRITEADDR`, for a counter `_wa_s` that starts non-negative: one
iteration per unit of the counter. -/
def WRITEADDR_loop : Nat → Nat → Cursor → Cursor
  | 0, _, c => c
  | wa_s + 1, wa_v, c => WRITEADDR_loop wa_s (wa_v >>> 8) (WRITECHAR c wa_v)

/-- Portable `WRITEADDR(p,v,s)`: `int _wa_s = s; uint64_t _wa_v = v;` and the
loop, for a size `0 <= s <= INT_MAX`, on which the conversion to `int` keeps
the value (a negative counter would count down past `INT_MIN`).
`WRITEADDR_exec` below is the macro for any integer size, with the conversion
and the `int` counter. -/
def WRITEADDR (c : Cursor) (v s : Nat) : Cursor :=
  WRITEADDR_loop s (uint64 v) c

/-! ## Fast writers (`#if X86_MEMORY` branch) -/

/-- Byte order of the executing host. -/
inductive Endian where
  | little
  | big
  deriving DecidableEq, Repr

/-- Object representation, in increasing address order, of a `w`-byte unsigned
integer holding `v` on a host of the given byte order. -/
def objrep (h : Endian) (w v : Nat) : List Nat :=
  match h with
  | Endian.little => (List.range w).map fun i => (v >>> (8 * i)) % 256
  | Endian.big => (List.range w).map fun i => (v >>> (8 * (w - 1 - i))) % 256

/-- Store of a run of bytes at consecutive addresses starting at `a`. -/
def Mem.store (m : Mem) (a : Nat) : List Nat → Mem
  | [] => m
  | b :: bs => Mem.store (m.set a b) (a + 1) bs

/-- The bytes of memory at addresses `a, a+1, ..., a+n-1`. -/
def Mem.read (m : Mem) (a n : Nat) : List Nat :=
  (List.range n).map fun i => m (a + i)

/-- The call `memcpy(dst, src, n)` from a source object whose bytes are `src`:
copies its first `n` bytes. Reading past the end of the source object is
undefined and gives `none`. -/
def memcpy (m : Mem) (dst : Nat) (src : List Nat) (n : Nat) : Option Mem :=
  if n ≤ src.length then some (m.store dst (src.take n)) else none

namespace X86

/-- Fast `WRITECHAR(p,v)`: `*(uint8_t *)(p) = (v); (p) += 1`. -/
def WRITECHAR (h : Endian) (c : Cursor) (v : Nat) : Cursor :=
  { mem := c.mem.store c.p (objrep h 1 (uint8 v)), p := c.p + 1 }

/-- Fast `WRITESHORT(p,v)`: `*(uint16_t *)(p) = (v); (p) += 2`, a store of the
host's own two-byte representation. -/
def WRITESHORT (h : Endian) (c : Cursor) (v : Nat) : Cursor :=
  { mem := c.mem.store c.p (objrep h 2 (uint16 v)), p := c.p + 2 }

/-- Fast `WRITELONG(p,v)`: `*(uint32_t *)(p) = (v); (p) += 4`. -/
def WRITELONG (h : Endian) (c : Cursor) (v : Nat) : Cursor :=
  { mem := c.mem.store c.p (objrep h 4 (uint32 v)), p := c.p + 4 }

/-- Fast `WRITEDLONG(p,v)`: `*(uint64_t *)(p) = (v); (p) += 8`. -/
def WRITEDLONG (h : Endian) (c : Cursor) (v : Nat) : Cursor :=
  { mem := c.mem.store c.p (objrep h 8 (uint64 v)), p := c.p + 8 }

/-- Fast `WRITEADDR(p,v,s)`:
`uint64_t _wa_v = (v); memcpy((p), &_wa_v, (s)); (p) += (s)`. -/
def WRITEADDR (h : Endian) (c : Cursor) (v s : Nat) : Option Cursor :=
  let wa_v := uint64 v
  (memcpy c.mem c.p (objrep h 8 wa_v) s).map fun m => { mem := m, p := c.p + s }

end X86

/-! ## Selection of the variant by `#if X86_MEMORY` -/

/-- What `compiler.h` fixes for a build: the host's byte order and whether
`X86_MEMORY` is set. -/
structure Build where
  host : Endian
  X86_MEMORY : Bool
  deriving DecidableEq, Repr

/-- `WRITECHAR` as the preprocessor selects it. -/
def Build.WRITECHAR (b : Build) (c : Cursor) (v : Nat) : Cursor :=
  if b.X86_MEMORY then X86.WRITECHAR b.host c v else Nasmlib.WRITECHAR c v

/-- `WRITESHORT` as the preprocessor selects it. -/
def Build.WRITESHORT (b : Build) (c : Cursor) (v : Nat) : Cursor :=
  if b.X86_MEMORY then X86.WRITESHORT b.host c v else Nasmlib.WRITESHORT c v

/-- `WRITELONG` as the preprocessor selects it. -/
def Build.WRITELONG (b : Build) (c : Cursor) (v : Nat) : Cursor :=
  if b.X86_MEMORY then X86.WRITELONG b.host c v else Nasmlib.WRITELONG c v

/-- `WRITEDLONG` as the preprocessor selects it. -/
def Build.WRITEDLONG (b : Build) (c : Cursor) (v : Nat) : Cursor :=
  if b.X86_MEMORY then X86.WRITEDLONG b.host c v else Nasmlib.WRITEDLONG c v

/-- `WRITEADDR` as the preprocessor selects it. -/
def Build.WRITEADDR (b : Build) (c : Cursor) (v s : Nat) : Option Cursor :=
  if b.X86_MEMORY then X86.WRITEADDR b.host c v s else some (Nasmlib.WRITEADDR c v s)

/-- The bytes a writer produced: the buffer contents between the cursor
before the write (`c`) and the cursor after it (`d`). -/
def written (c d : Cursor) : List Nat :=
  d.mem.read c.p (d.p - c.p)

/-! ## Stream writers -/

/-- An output stream (`FILE *`): the bytes written to it so far, oldest first. -/
abbrev FILE := List Nat

/-- The C library call `putc(d, f)`: appends `d` converted to `unsigned char`. -/
def putc (d : Nat) (f : FILE) : FILE := f ++ [uint8 d]

/-- The macro `fwriteint8_t(d,f)`, defined as `putc(d,f)`. -/
def fwriteint8_t (d : Nat) (f : FILE) : FILE := putc d f

/-- Modelled from the spec: the bytes of a `w`-byte stream write; the bodies of
`fwriteint16_t`, `fwriteint32_t`, `fwriteint64_t` and `fwriteaddr` are in
`nasmlib.c`, which is missing. The spec: the low-order `w` bytes of the value,
"always least-significant-byte first". -/
def streamBytes (w data : Nat) : List Nat :=
  (List.range w).map fun i => (data / 256 ^ i) % 256

/-- Modelled from the spec: `fwriteint16_t(uint16_t data, FILE *fp)` is
declared only; it "writes sequentially" the 2 bytes of `data`. -/
def fwriteint16_t (data : Nat) (fp : FILE) : FILE :=
  fp ++ streamBytes 2 (uint16 data)

/-- Modelled from the spec: `fwriteint32_t(uint32_t data, FILE *fp)` is
declared only; it writes the 4 bytes of `data`. -/
def fwriteint32_t (data : Nat) (fp : FILE) : FILE :=
  fp ++ streamBytes 4 (uint32 data)

/-- Modelled from the spec: `fwriteint64_t(uint64_t data, FILE *fp)` is
declared only; it writes the 8 bytes of `data`. -/
def fwriteint64_t (data : Nat) (fp : FILE) : FILE :=
  fp ++ streamBytes 8 (uint64 data)

/-- Modelled from the spec: `fwriteaddr(uint64_t data, int size, FILE *fp)` is
declared only; the "arbitrary-width variant (1-8 bytes) taking the low-order
bytes of a 64-bit value". -/
def fwriteaddr (data size : Nat) (fp : FILE) : FILE :=
  fp ++ streamBytes size (uint64 data)

/-! ## Error severity codes -/

def ERR_DEBUG : Nat := 0x00000008
def ERR_WARNING : Nat := 0x00000000
def ERR_NONFATAL : Nat := 0x00000001
def ERR_FATAL : Nat := 0x00000002
def ERR_PANIC : Nat := 0x00000003
def ERR_MASK : Nat := 0x0000000F
def ERR_NOFILE : Nat := 0x00000010
def ERR_USAGE : Nat := 0x00000020
def ERR_PASS1 : Nat := 0x00000040

def ERR_WARN_MASK : Nat := 0x0000FF00
def ERR_WARN_SHR : Nat := 8

/-- The macro `WARN(x)`, `((x) << ERR_WARN_SHR)`. -/
def WARN (x : Nat) : Nat := x <<< ERR_WARN_SHR

def ERR_WARN_MNP : Nat := WARN 1
def ERR_WARN_MSR : Nat := WARN 2
def ERR_WARN_OL : Nat := WARN 3
def ERR_WARN_NOV : Nat := WARN 4
def ERR_WARN_GNUELF : Nat := WARN 5
def ERR_WARN_FL_OVERFLOW : Nat := WARN 6
def ERR_WARN_FL_DENORM : Nat := WARN 7
def ERR_WARN_FL_UNDERFLOW : Nat := WARN 8
def ERR_WARN_FL_TOOLONG : Nat := WARN 9
def ERR_WARN_MAX : Nat := 9

/-- The five severity levels. -/
def levels : List Nat := [ERR_DEBUG, ERR_WARNING, ERR_NONFATAL, ERR_FATAL, ERR_PANIC]

/-- The nine named suppressible-warning codes, in the order of their
definitions. -/
def warnCodes : List Nat :=
  [ERR_WARN_MNP, ERR_WARN_MSR, ERR_WARN_OL, ERR_WARN_NOV, ERR_WARN_GNUELF,
   ERR_WARN_FL_OVERFLOW, ERR_WARN_FL_DENORM, ERR_WARN_FL_UNDERFLOW,
   ERR_WARN_FL_TOOLONG]

/-- A severity argument: a level, the chosen modifier bits and a warning
class, combined with bitwise or. -/
def severity (level : Nat) (nofile usage pass1 : Bool) (cls : Nat) : Nat :=
  level ||| (if nofile then ERR_NOFILE else 0) ||| (if usage then ERR_USAGE else 0)
    ||| (if pass1 then ERR_PASS1 else 0) ||| WARN cls

/-- The decoding facts of a severity value, as one decidable statement. -/
def decodes (level : Nat) (nofile usage pass1 : Bool) (cls : Nat) : Prop :=
  severity level nofile usage pass1 cls &&& ERR_MASK = level ∧
  (severity level nofile usage pass1 cls &&& ERR_WARN_MASK) >>> ERR_WARN_SHR = cls ∧
  (severity level nofile usage pass1 cls &&& ERR_NOFILE ≠ 0 ↔ nofile = true) ∧
  (severity level nofile usage pass1 cls &&& ERR_USAGE ≠ 0 ↔ usage = true) ∧
  (severity level nofile usage pass1 cls &&& ERR_PASS1 ≠ 0 ↔ pass1 = true)

instance (level : Nat) (nofile usage pass1 : Bool) (cls : Nat) :
    Decidable (decodes level nofile usage pass1 cls) := by
  unfold decodes; infer_instance

/-! ## Numeral and character-constant reading -/

/-- Conversion to `int64_t`: the value reduced into `[-2^63, 2^63)` modulo
`2^64`. -/
def int64 (x : Int) : Int := (x + 2 ^ 63) % 2 ^ 64 - 2 ^ 63

/-- The 64-bit two's complement pattern of an `int64_t` value. -/
def bits64 (x : Int) : Nat := (x % 2 ^ 64).toNat

/-- Value of a character as a digit: `0`-`9`, then letters `a`-`f` / `A`-`F`
for 10-15; `none` for any other character. -/
def digitValue (ch : Char) : Option Nat :=
  let n := ch.toNat
  if 48 ≤ n ∧ n ≤ 57 then some (n - 48)
  else if 97 ≤ n ∧ n ≤ 102 then some (n - 87)
  else if 65 ≤ n ∧ n ≤ 70 then some (n - 55)
  else none

/-- Modelled from the spec: the "optional leading `+`/`-`" of `readnum`
(`nasmlib.c` is missing). Returns whether the sign is `-`, and the rest. -/
def splitSign (str : List Char) : Bool × List Char :=
  if str.head? = some '-' then (true, str.drop 1)
  else if str.head? = some '+' then (false, str.drop 1)
  else (false, str)

/-- Modelled from the spec: the radix of a token of `readnum` and its digit run,
"in priority order: an explicit prefix (`0x`/`0X` -> hex, `$` -> hex), else a
trailing radix letter consumed from the digit run (`h`/`H` -> hex,
`q`/`Q`/`o`/`O` -> octal, `b`/`B` -> binary, `d`/`D`/`t`/`T` -> decimal, or
omitted -> decimal)". -/
def splitRadix (r : List Char) : Nat × List Char :=
  if r.take 2 = ['0', 'x'] ∨ r.take 2 = ['0', 'X'] then (16, r.drop 2)
  else if r.head? = some '$' then (16, r.drop 1)
  else
    match r.getLast? with
    | none => (10, r)
    | some e =>
      if e = 'h' ∨ e = 'H' then (16, r.dropLast)
      else if e = 'q' ∨ e = 'Q' ∨ e = 'o' ∨ e = 'O' then (8, r.dropLast)
      else if e = 'b' ∨ e = 'B' then (2, r.dropLast)
      else if e = 'd' ∨ e = 'D' ∨ e = 't' ∨ e = 'T' then (10, r.dropLast)
      else (10, r)

/-- Modelled from the spec: the magnitude of a digit run of `readnum` in the
given radix, most significant digit first; "underscores between digits are
skipped", and a character that is not a digit of the radix gives `none`. -/
def digitRun (radix : Nat) : Nat → List Char → Option Nat
  | acc, [] => some acc
  | acc, ch :: rest =>
    if ch = '_' then digitRun radix acc rest
    else
      match digitValue ch with
      | none => none
      | some d => if d < radix then digitRun radix (radix * acc + d) rest else none

/-- Modelled from the spec: `int64_t readnum(char *str, bool *error)` is
declared only. The spec's `parseNumeral(text) -> (value: int64, formatError)`:
sign, radix and digit run as above; `formatError` when "the digit run is
empty" or "contains a digit invalid for its radix" (the spec's third case,
an inconsistent sign/prefix combination, is not spelled out; a sign or prefix
with nothing after it is an empty digit run here); "numeric overflow beyond
64 bits is not reported by this operation (wraps silently)". The result is
the pair of the returned value and `*error`. -/
def readnum (str : List Char) : Int × Bool :=
  let (neg, r) := splitSign str
  let (radix, run) := splitRadix r
  if run = [] then (0, true)
  else
    match digitRun radix 0 run with
    | none => (0, true)
    | some magnitude =>
      (int64 (if neg then -(magnitude : Int) else (magnitude : Int)), false)

/-- The value a string of decimal digits denotes. -/
def decimalValue (str : List Char) : Nat :=
  Nat.ofDigits 10 (str.reverse.map fun ch => ch.toNat - 48)

/-- A string is non-empty and consists of the digits `0`-`9` only. -/
def isDecimal (str : List Char) : Prop :=
  str ≠ [] ∧ ∀ ch ∈ str, 48 ≤ ch.toNat ∧ ch.toNat ≤ 57

/-- Modelled from the spec: the packing of a character constant, "byte i
(0-indexed from the start of the sequence) occupies bits [8i, 8i+8) of the
result, least-significant byte first". -/
def packBytes : List Nat → Nat
  | [] => 0
  | b :: bs => uint8 b + 256 * packBytes bs

/-- Modelled from the spec: `int64_t readstrnum(char *str, int length, bool
*warn)` is declared only. The spec's `parseCharacterConstant`: "sequences
longer than 8 bytes set overflow and only the first 8 bytes are packed
(trailing bytes discarded)". The argument is the byte sequence `str[0..length)`;
the result is the pair of the returned value and `*warn`. -/
def readstrnum (str : List Nat) : Int × Bool :=
  (int64 (packBytes (str.take 8)), decide (8 < str.length))

/-! ## Source-location tracker -/

/-- The C library call `strcmp(s, t)` on strings without their terminating
NUL: negative, zero or positive as `s` is before, equal to or after `t` in
the order of their character codes. -/
def strcmp : List Char → List Char → Int
  | [], [] => 0
  | [], _ :: _ => -1
  | _ :: _, [] => 1
  | a :: s, b :: t =>
    if a.toNat < b.toNat then -1
    else if b.toNat < a.toNat then 1
    else strcmp s t

/-- Case folding of a string, character by character (`tolower`). -/
def foldCase (s : List Char) : List Char := s.map Char.toLower

/-- The comparison `nasm_stricmp(s, t)`, declared in `nasmlib.h` (or the
library's `strcasecmp` / `stricmp`): `strcmp` on the case-folded strings. -/
def nasm_stricmp (s t : List Char) : Int := strcmp (foldCase s) (foldCase t)

/-- Modelled from the spec: the "one algorithm parameterized by comparison
function" that `bsi` and `bsii` share, a binary search (the header: "Binary
search routine") of the index window `[lo, hi)`; `-1` is the "negative
sentinel". The first argument bounds the number of probes. -/
def bsearch (cmp : List Char → List Char → Int) (string : List Char)
    (array : List (List Char)) : Nat → Nat → Nat → Int
  | 0, _, _ => -1
  | fuel + 1, lo, hi =>
    if lo < hi then
      let k := (lo + hi) / 2
      let l := cmp string (array.getD k [])
      if l < 0 then bsearch cmp string array fuel lo k
      else if l > 0 then bsearch cmp string array fuel (k + 1) hi
      else (k : Int)
    else -1

/-- Modelled from the spec: `bsi(string, array, size)` is declared only; the
case-sensitive search of the first `size` entries of `array`. -/
def bsi (string : List Char) (array : List (List Char)) (size : Nat) : Int :=
  bsearch strcmp string array size 0 size

/-- Modelled from the spec: `bsii(string, array, size)` is declared only; the
case-insensitive search. -/
def bsii (string : List Char) (array : List (List Char)) (size : Nat) : Int :=
  bsearch nasm_stricmp string array size 0 size

/-- The first `size` entries of `array` are in non-decreasing order under the
comparison `cmp`. -/
def sortedUnder (cmp : List Char → List Char → Int) (array : List (List Char))
    (size : Nat) : Prop :=
  ∀ j, j < size → ∀ i, i < j → cmp (array.getD i []) (array.getD j []) ≤ 0

instance (cmp : List Char → List Char → Int) (array : List (List Char)) (size : Nat) :
    Decidable (sortedUnder cmp array size) := by
  unfold sortedUnder; infer_instance

/-- The table `["apple", "mid", "zeta"]` of the spec's search example. -/
def exampleTable : List (List Char) :=
  [['a', 'p', 'p', 'l', 'e'], ['m', 'i', 'd'], ['z', 'e', 't', 'a']]

/-! ## Reading bytes back, and the `WRITEADDR` loop step by step -/

/-- The little-endian unsigned integer a byte sequence denotes, the sum of
`byte_i * 256 ^ i`. -/
def readLE : List Nat → Nat
  | [] => 0
  | b :: bs => b + 256 * readLE bs

/-- The least value of `int` (32 bits). -/
def INT_MIN : Int := -2147483648

/-- The greatest value of `int` (32 bits). -/
def INT_MAX : Int := 2147483647

/-- Conversion of an integer value to `int`, as in `int _wa_s = (s)`: a value
in `[INT_MIN, INT_MAX]` is kept, any other is reduced modulo `2^32` into that
range (what the usual hosts do for this conversion). -/
def int32 (x : Int) : Int := (x + 2 ^ 31) % 2 ^ 32 - 2 ^ 31

/-- State of the portable `WRITEADDR` loop: the `int` counter `_wa_s`, the
value `_wa_v` and the cursor. -/
structure LoopState where
  wa_s : Int
  wa_v : Nat
  c : Cursor

/-- What one evaluation of the loop test does: the body runs and gives the
next state, or the loop stops at a cursor, or the decrement overflows `int`. -/
inductive LoopStep where
  | body (st : LoopState)
  | stop (c : Cursor)
  | undefined

/-- One evaluation of `while (_wa_s--) { WRITECHAR(p,_wa_v); _wa_v >>= 8; }`:
the test `_wa_s--` yields the old counter and decrements it. When the old
counter is zero the loop stops; when it is `INT_MIN` the decrement overflows
(undefined); otherwise the body runs. -/
def WRITEADDR_step (st : LoopState) : LoopStep :=
  if st.wa_s = 0 then LoopStep.stop st.c
  else if st.wa_s = INT_MIN then LoopStep.undefined
  else
    LoopStep.body
      { wa_s := st.wa_s - 1, wa_v := st.wa_v >>> 8, c := WRITECHAR st.c st.wa_v }

/-- The loop run with at most `fuel` evaluations of its test: the number of
iterations of the body and the cursor when the loop stops; `none` when it has
not stopped by then or its behaviour is undefined. -/
def WRITEADDR_run : Nat → LoopState → Option (Nat × Cursor)
  | 0, _ => none
  | fuel + 1, st =>
    match WRITEADDR_step st with
    | LoopStep.stop c => some (0, c)
    | LoopStep.undefined => none
    | LoopStep.body st1 => (WRITEADDR_run fuel st1).map fun r => (r.1 + 1, r.2)

/-- Portable `WRITEADDR(p,v,s)` for any integer size: the conversions
`int _wa_s = (s); uint64_t _wa_v = (v);` and then the loop. -/
def WRITEADDR_exec (fuel : Nat) (c : Cursor) (v : Nat) (s : Int) : Option (Nat × Cursor) :=
  WRITEADDR_run fuel { wa_s := int32 s, wa_v := uint64 v, c := c }

/-! ## Helper lemmas -/

theorem Mem.set_same (m : Mem) (a b : Nat) : m.set a b a = b := by
  simp [Mem.set]

theorem Mem.set_other (m : Mem) (a b x : Nat) (h : x ≠ a) : m.set a b x = m x := by
  simp [Mem.set, h]

theorem WRITEADDR_loop_p (s : Nat) : ∀ (v : Nat) (c : Cursor),
    (WRITEADDR_loop s v c).p = c.p + s := by
  induction s with
  | zero => intro v c; rfl
  | succ n ih =>
    intro v c
    simp only [WRITEADDR_loop, ih, WRITECHAR]
    omega

theorem WRITEADDR_loop_frame (s : Nat) : ∀ (v : Nat) (c : Cursor) (x : Nat),
    (x < c.p ∨ c.p + s ≤ x) → (WRITEADDR_loop s v c).mem x = c.mem x := by
  induction s with
  | zero => intro v c x _; rfl
  | succ n ih =>
    intro v c x hx
    simp only [WRITEADDR_loop]
    rw [ih]
    · simp only [WRITECHAR]
      apply Mem.set_other
      omega
    · simp only [WRITECHAR]
      omega

theorem WRITEADDR_loop_byte (s : Nat) : ∀ (v : Nat) (c : Cursor) (i : Nat),
    i < s → (WRITEADDR_loop s v c).mem (c.p + i) = (v >>> (8 * i)) % 256 := by
  induction s with
  | zero => intro v c i hi; omega
  | succ n ih =>
    intro v c i hi
    simp only [WRITEADDR_loop]
    cases i with
    | zero =>
      rw [WRITEADDR_loop_frame]
      · simp [WRITECHAR, Mem.set, uint8]
      · left; simp [WRITECHAR]
    | succ j =>
      have h := ih (v >>> 8) (WRITECHAR c v) j (by omega)
      have hp : (WRITECHAR c v).p + j = c.p + (j + 1) := by
        simp only [WRITECHAR]; omega
      rw [hp] at h
      rw [h, Nat.shiftRight_eq_div_pow, Nat.shiftRight_eq_div_pow,
        Nat.shiftRight_eq_div_pow, Nat.div_div_eq_div_mul, ← pow_add]
      congr 3
      omega

theorem uint64_shift_byte (v i : Nat) (hi : i < 8) :
    (uint64 v >>> (8 * i)) % 256 = (v >>> (8 * i)) % 256 := by
  interval_cases i <;> simp [uint64, Nat.shiftRight_eq_div_pow] <;> omega

theorem Mem.store_apply (bs : List Nat) : ∀ (m : Mem) (a x : Nat),
    m.store a bs x = if a ≤ x ∧ x < a + bs.length then bs.getD (x - a) 0 else m x := by
  induction bs with
  | nil =>
    intro m a x
    have h : ¬ (a ≤ x ∧ x < a + ([] : List Nat).length) := by simp
    rw [if_neg h]
    rfl
  | cons b bs ih =>
    intro m a x
    simp only [Mem.store, ih, List.length_cons]
    by_cases h1 : a + 1 ≤ x ∧ x < a + 1 + bs.length
    · have h2 : a ≤ x ∧ x < a + (bs.length + 1) := by omega
      have h3 : x - a = (x - (a + 1)) + 1 := by omega
      rw [if_pos h1, if_pos h2, h3, List.getD_cons_succ]
    · rw [if_neg h1]
      by_cases h4 : x = a
      · subst h4
        simp [Mem.set]
      · have h2 : ¬ (a ≤ x ∧ x < a + (bs.length + 1)) := by omega
        rw [if_neg h2]
        exact Mem.set_other m a b x h4

theorem objrep_little_getD (w v i : Nat) (hi : i < w) :
    (objrep Endian.little w v).getD i 0 = (v >>> (8 * i)) % 256 := by
  simp [objrep, List.getD_eq_getElem?_getD, List.getElem?_map, List.getElem?_range hi]

theorem objrep_length (h : Endian) (w v : Nat) : (objrep h w v).length = w := by
  cases h <;> simp [objrep]

theorem X86_WRITEADDR_little (c : Cursor) (v s : Nat) (hs : s ≤ 8) :
    X86.WRITEADDR Endian.little c v s = some (WRITEADDR c v s) := by
  have hlen : s ≤ (objrep Endian.little 8 (uint64 v)).length := by
    rw [objrep_length]; exact hs
  simp only [X86.WRITEADDR, memcpy, if_pos hlen, Option.map_some', Option.some.injEq]
  apply Cursor.ext
  · funext x
    simp only [WRITEADDR, Mem.store_apply, List.length_take, objrep_length,
      Nat.min_eq_left hs]
    by_cases hx : c.p ≤ x ∧ x < c.p + s
    · rw [if_pos hx]
      have hx2 : x = c.p + (x - c.p) := by omega
      have hi : x - c.p < s := by omega
      conv_rhs => rw [hx2]
      rw [WRITEADDR_loop_byte s _ c _ hi, List.getD_eq_getElem?_getD,
        List.getElem?_take_of_lt hi, ← List.getD_eq_getElem?_getD,
        objrep_little_getD _ _ _ (by omega)]
    · rw [if_neg hx, WRITEADDR_loop_frame]
      omega
  · simp [WRITEADDR, WRITEADDR_loop_p]

theorem written_WRITEADDR (c : Cursor) (v s : Nat) :
    written c (WRITEADDR c v s)
      = (List.range s).map fun i => (uint64 v >>> (8 * i)) % 256 := by
  simp only [written, WRITEADDR, WRITEADDR_loop_p, Nat.add_sub_cancel_left, Mem.read]
  apply List.map_congr_left
  intro i hi
  exact WRITEADDR_loop_byte s _ c i (List.mem_range.mp hi)

theorem X86_fixed_little (c : Cursor) (v : Nat) :
    X86.WRITECHAR Endian.little c v = WRITECHAR c v ∧
    X86.WRITESHORT Endian.little c v = WRITESHORT c v ∧
    X86.WRITELONG Endian.little c v = WRITELONG c v ∧
    X86.WRITEDLONG Endian.little c v = WRITEDLONG c v := by
  refine ⟨?_, ?_, ?_, ?_⟩ <;>
    simp [X86.WRITECHAR, X86.WRITESHORT, X86.WRITELONG, X86.WRITEDLONG, WRITECHAR,
      WRITESHORT, WRITELONG, WRITEDLONG, objrep, List.range, List.range.loop,
      Mem.store, uint8]

theorem X86_WRITECHAR_any_host (h : Endian) (c : Cursor) (v : Nat) :
    X86.WRITECHAR h c v = WRITECHAR c v := by
  cases h <;>
    simp [X86.WRITECHAR, WRITECHAR, objrep, List.range, List.range.loop, Mem.store, uint8]

set_option maxRecDepth 100000 in
theorem decodes_all : ∀ level ∈ levels, ∀ nofile usage pass1 : Bool, ∀ cls < 256,
    decodes level nofile usage pass1 cls := by
  decide

theorem digit_ne (ch : Char) (hd : 48 ≤ ch.toNat ∧ ch.toNat ≤ 57) (x : Char)
    (hx : x.toNat < 48 ∨ 57 < x.toNat) : ch ≠ x := by
  intro h
  subst h
  omega

theorem digitValue_digit (ch : Char) (hd : 48 ≤ ch.toNat ∧ ch.toNat ≤ 57) :
    digitValue ch = some (ch.toNat - 48) := by
  simp [digitValue, hd]

theorem splitSign_digits (str : List Char) (h : isDecimal str) :
    splitSign str = (false, str) := by
  obtain ⟨hne, hall⟩ := h
  cases str with
  | nil => exact absurd rfl hne
  | cons ch t =>
    have hd := hall ch (List.mem_cons_self ch t)
    have h1 : ch ≠ '-' := digit_ne ch hd '-' (by decide)
    have h2 : ch ≠ '+' := digit_ne ch hd '+' (by decide)
    simp [splitSign, h1, h2]

theorem splitRadix_digits (str : List Char) (h : isDecimal str) :
    splitRadix str = (10, str) := by
  obtain ⟨hne, hall⟩ := h
  have hpre : ¬ (str.take 2 = ['0', 'x'] ∨ str.take 2 = ['0', 'X']) := by
    match str, hall with
    | [], _ => simp
    | [a], _ => simp
    | a :: b :: t, hall =>
      have hb := hall b (by simp)
      have h1 : b ≠ 'x' := digit_ne b hb 'x' (by decide)
      have h2 : b ≠ 'X' := digit_ne b hb 'X' (by decide)
      simp [h1, h2]
  have hdollar : ¬ (str.head? = some '$') := by
    cases str with
    | nil => simp
    | cons a t =>
      have ha := hall a (List.mem_cons_self a t)
      have h1 : a ≠ '$' := digit_ne a ha '$' (by decide)
      simp [h1]
  obtain ⟨e, he⟩ : ∃ e, str.getLast? = some e := by
    cases hl : str.getLast? with
    | none => exact absurd (List.getLast?_eq_none_iff.mp hl) hne
    | some e => exact ⟨e, rfl⟩
  have hmem : e ∈ str := List.mem_of_getLast?_eq_some he
  have hd := hall e hmem
  have n1 : e ≠ 'h' := digit_ne e hd 'h' (by decide)
  have n2 : e ≠ 'H' := digit_ne e hd 'H' (by decide)
  have n3 : e ≠ 'q' := digit_ne e hd 'q' (by decide)
  have n4 : e ≠ 'Q' := digit_ne e hd 'Q' (by decide)
  have n5 : e ≠ 'o' := digit_ne e hd 'o' (by decide)
  have n6 : e ≠ 'O' := digit_ne e hd 'O' (by decide)
  have n7 : e ≠ 'b' := digit_ne e hd 'b' (by decide)
  have n8 : e ≠ 'B' := digit_ne e hd 'B' (by decide)
  have n9 : e ≠ 'd' := digit_ne e hd 'd' (by decide)
  have n10 : e ≠ 'D' := digit_ne e hd 'D' (by decide)
  have n11 : e ≠ 't' := digit_ne e hd 't' (by decide)
  have n12 : e ≠ 'T' := digit_ne e hd 'T' (by decide)
  unfold splitRadix
  rw [if_neg hpre, if_neg hdollar, he]
  simp [n1, n2, n3, n4, n5, n6, n7, n8, n9, n10, n11, n12]

theorem decimalValue_cons (ch : Char) (t : List Char) :
    decimalValue (ch :: t) = (ch.toNat - 48) * 10 ^ t.length + decimalValue t := by
  simp [decimalValue, Nat.ofDigits_append]
  ring

theorem digitRun_digits (str : List Char) :
    ∀ acc, (∀ ch ∈ str, 48 ≤ ch.toNat ∧ ch.toNat ≤ 57) →
      digitRun 10 acc str = some (acc * 10 ^ str.length + decimalValue str) := by
  induction str with
  | nil => intro acc _; simp [digitRun, decimalValue]
  | cons ch t ih =>
    intro acc hall
    have hd := hall ch (List.mem_cons_self ch t)
    have h1 : ch ≠ '_' := digit_ne ch hd '_' (by decide)
    have hlt : ch.toNat - 48 < 10 := by omega
    have hrest : ∀ x ∈ t, 48 ≤ x.toNat ∧ x.toNat ≤ 57 :=
      fun x hx => hall x (List.mem_cons_of_mem ch hx)
    simp only [digitRun, if_neg h1, digitValue_digit ch hd, if_pos hlt, ih _ hrest,
      decimalValue_cons, List.length_cons]
    congr 1
    ring

theorem int64_of_small (n : Nat) (h : n < 2 ^ 63) : int64 (n : Int) = (n : Int) := by
  unfold int64
  have h2 : (n : Int) < 2 ^ 63 := by exact_mod_cast h
  have h3 : (0 : Int) ≤ n := Int.natCast_nonneg n
  norm_num at h2 ⊢
  omega

theorem packBytes_lt (l : List Nat) : packBytes l < 256 ^ l.length := by
  induction l with
  | nil => simp [packBytes]
  | cons b bs ih =>
    have hb : uint8 b < 256 := by unfold uint8; omega
    simp only [packBytes, List.length_cons, pow_succ]
    omega

theorem packBytes_byte (l : List Nat) : ∀ i, i < l.length →
    (packBytes l / 256 ^ i) % 256 = uint8 (l.getD i 0) := by
  induction l with
  | nil => intro i hi; simp at hi
  | cons b bs ih =>
    intro i hi
    have hb : uint8 b < 256 := by unfold uint8; omega
    cases i with
    | zero =>
      simp only [packBytes, pow_zero, Nat.div_one, List.getD_cons_zero]
      omega
    | succ j =>
      have hj : j < bs.length := by simpa using hi
      have hdiv : (uint8 b + 256 * packBytes bs) / 256 = packBytes bs := by omega
      rw [List.getD_cons_succ, ← ih j hj]
      simp only [packBytes]
      rw [pow_succ, Nat.mul_comm (256 ^ j) 256, ← Nat.div_div_eq_div_mul, hdiv]

theorem bits64_int64 (n : Nat) : bits64 (int64 (n : Int)) = n % 2 ^ 64 := by
  unfold bits64 int64
  have h4 : (((n : Int) + 2 ^ 63) % 2 ^ 64 - 2 ^ 63) % 2 ^ 64 = ((n % 2 ^ 64 : Nat) : Int) := by
    push_cast
    omega
  rw [h4]
  exact Int.toNat_ofNat _

theorem bits64_int64_of_lt (n : Nat) (h : n < 2 ^ 64) : bits64 (int64 (n : Int)) = n := by
  rw [bits64_int64, Nat.mod_eq_of_lt h]

theorem packBytes_take8_lt (str : List Nat) : packBytes (str.take 8) < 2 ^ 64 := by
  have h := packBytes_lt (str.take 8)
  have hlen : (str.take 8).length ≤ 8 := by simp
  calc packBytes (str.take 8) < 256 ^ (str.take 8).length := h
    _ ≤ 256 ^ 8 := Nat.pow_le_pow_right (by norm_num) hlen
    _ = 2 ^ 64 := by norm_num

theorem WRITEADDR_mem (c : Cursor) (v s x : Nat) :
    (WRITEADDR c v s).mem x
      = if c.p ≤ x ∧ x < c.p + s then (uint64 v >>> (8 * (x - c.p))) % 256 else c.mem x := by
  by_cases hx : c.p ≤ x ∧ x < c.p + s
  · rw [if_pos hx]
    have hx2 : x = c.p + (x - c.p) := by omega
    conv_lhs => rw [hx2]
    exact WRITEADDR_loop_byte s _ c _ (by omega)
  · rw [if_neg hx]
    exact WRITEADDR_loop_frame s _ c x (by omega)

theorem fixed_mem (c : Cursor) (v x : Nat) :
    ((WRITECHAR c v).mem x
      = if c.p ≤ x ∧ x < c.p + 1 then (v >>> (8 * (x - c.p))) % 256 else c.mem x) ∧
    ((WRITESHORT c v).mem x
      = if c.p ≤ x ∧ x < c.p + 2 then (v >>> (8 * (x - c.p))) % 256 else c.mem x) ∧
    ((WRITELONG c v).mem x
      = if c.p ≤ x ∧ x < c.p + 4 then (v >>> (8 * (x - c.p))) % 256 else c.mem x) ∧
    ((WRITEDLONG c v).mem x
      = if c.p ≤ x ∧ x < c.p + 8 then (v >>> (8 * (x - c.p))) % 256 else c.mem x) := by
  refine ⟨?_, ?_, ?_, ?_⟩
  · by_cases hx : c.p ≤ x ∧ x < c.p + 1
    · obtain ⟨i, hi, rfl⟩ : ∃ i, i < 1 ∧ x = c.p + i := ⟨x - c.p, by omega, by omega⟩
      rw [if_pos hx]
      interval_cases i
      simp [WRITECHAR, Mem.set, uint8, Nat.shiftRight_eq_div_pow]
    · rw [if_neg hx]
      simp only [WRITECHAR]
      rw [Mem.set_other _ _ _ _ (by omega)]
  · by_cases hx : c.p ≤ x ∧ x < c.p + 2
    · obtain ⟨i, hi, rfl⟩ : ∃ i, i < 2 ∧ x = c.p + i := ⟨x - c.p, by omega, by omega⟩
      rw [if_pos hx]
      interval_cases i <;>
        simp [WRITESHORT, Mem.set, uint8, uint16, Nat.shiftRight_eq_div_pow] <;> omega
    · rw [if_neg hx]
      simp only [WRITESHORT]
      rw [Mem.set_other _ _ _ _ (by omega), Mem.set_other _ _ _ _ (by omega)]
  · by_cases hx : c.p ≤ x ∧ x < c.p + 4
    · obtain ⟨i, hi, rfl⟩ : ∃ i, i < 4 ∧ x = c.p + i := ⟨x - c.p, by omega, by omega⟩
      rw [if_pos hx]
      interval_cases i <;>
        simp [WRITELONG, Mem.set, uint8, uint32, Nat.shiftRight_eq_div_pow] <;> omega
    · rw [if_neg hx]
      simp only [WRITELONG]
      rw [Mem.set_other _ _ _ _ (by omega), Mem.set_other _ _ _ _ (by omega),
        Mem.set_other _ _ _ _ (by omega), Mem.set_other _ _ _ _ (by omega)]
  · by_cases hx : c.p ≤ x ∧ x < c.p + 8
    · obtain ⟨i, hi, rfl⟩ : ∃ i, i < 8 ∧ x = c.p + i := ⟨x - c.p, by omega, by omega⟩
      rw [if_pos hx]
      interval_cases i <;>
        simp [WRITEDLONG, Mem.set, uint8, uint64, Nat.shiftRight_eq_div_pow] <;> omega
    · rw [if_neg hx]
      simp only [WRITEDLONG]
      rw [Mem.set_other _ _ _ _ (by omega), Mem.set_other _ _ _ _ (by omega),
        Mem.set_other _ _ _ _ (by omega), Mem.set_other _ _ _ _ (by omega),
        Mem.set_other _ _ _ _ (by omega), Mem.set_other _ _ _ _ (by omega),
        Mem.set_other _ _ _ _ (by omega), Mem.set_other _ _ _ _ (by omega)]

theorem WRITEADDR_mem_le8 (c : Cursor) (v s x : Nat) (hs : s ≤ 8) :
    (WRITEADDR c v s).mem x
      = if c.p ≤ x ∧ x < c.p + s then (v >>> (8 * (x - c.p))) % 256 else c.mem x := by
  rw [WRITEADDR_mem]
  by_cases hx : c.p ≤ x ∧ x < c.p + s
  · rw [if_pos hx, if_pos hx, uint64_shift_byte _ _ (by omega)]
  · rw [if_neg hx, if_neg hx]

theorem WRITEADDR_p (c : Cursor) (v s : Nat) : (WRITEADDR c v s).p = c.p + s :=
  WRITEADDR_loop_p s _ c

theorem WRITEADDR_eq_fixed (c : Cursor) (v : Nat) :
    WRITEADDR c v 1 = WRITECHAR c v ∧ WRITEADDR c v 2 = WRITESHORT c v ∧
    WRITEADDR c v 4 = WRITELONG c v ∧ WRITEADDR c v 8 = WRITEDLONG c v := by
  refine ⟨?_, ?_, ?_, ?_⟩ <;> apply Cursor.ext
  · funext x; rw [WRITEADDR_mem_le8 c v 1 x (by omega), (fixed_mem c v x).1]
  · rw [WRITEADDR_p]; rfl
  · funext x; rw [WRITEADDR_mem_le8 c v 2 x (by omega), (fixed_mem c v x).2.1]
  · rw [WRITEADDR_p]; rfl
  · funext x; rw [WRITEADDR_mem_le8 c v 4 x (by omega), (fixed_mem c v x).2.2.1]
  · rw [WRITEADDR_p]; rfl
  · funext x; rw [WRITEADDR_mem_le8 c v 8 x (by omega), (fixed_mem c v x).2.2.2]
  · rw [WRITEADDR_p]; rfl

theorem WRITEADDR_compose (c : Cursor) (v a b : Nat) (hab : a + b ≤ 8) :
    WRITEADDR (WRITEADDR c v a) (v >>> (8 * a)) b = WRITEADDR c v (a + b) := by
  apply Cursor.ext
  · funext x
    rw [WRITEADDR_mem_le8 _ _ b x (by omega), WRITEADDR_mem_le8 c v (a + b) x hab,
      WRITEADDR_mem_le8 c v a x (by omega), WRITEADDR_p]
    by_cases h1 : c.p + a ≤ x ∧ x < c.p + a + b
    · have h2 : c.p ≤ x ∧ x < c.p + (a + b) := by omega
      rw [if_pos h1, if_pos h2, ← Nat.shiftRight_add]
      congr 3
      omega
    · rw [if_neg h1]
      by_cases h3 : c.p ≤ x ∧ x < c.p + a
      · have h2 : c.p ≤ x ∧ x < c.p + (a + b) := by omega
        rw [if_pos h3, if_pos h2]
      · have h2 : ¬ (c.p ≤ x ∧ x < c.p + (a + b)) := by omega
        rw [if_neg h3, if_neg h2]
  · rw [WRITEADDR_p, WRITEADDR_p, WRITEADDR_p]
    omega

theorem readLE_bytes (s : Nat) : ∀ w : Nat,
    readLE ((List.range s).map fun i => (w >>> (8 * i)) % 256) = w % 256 ^ s := by
  induction s with
  | zero => intro w; simp [readLE, Nat.mod_one]
  | succ n ih =>
    intro w
    have hstep : ∀ i, (w >>> (8 * (i + 1))) % 256 = ((w >>> 8) >>> (8 * i)) % 256 := by
      intro i
      rw [← Nat.shiftRight_add]
      congr 2
      omega
    rw [List.range_succ_eq_map, List.map_cons, List.map_map, readLE]
    have hmap : (fun i => (w >>> (8 * i)) % 256) ∘ Nat.succ
        = fun i => ((w >>> 8) >>> (8 * i)) % 256 := by
      funext i
      exact hstep i
    rw [hmap, ih (w >>> 8), pow_succ', Nat.mod_mul]
    simp [Nat.shiftRight_eq_div_pow]

theorem byte_of_mod (v s i : Nat) (hi : i < s) :
    (v % 256 ^ s) / 256 ^ i % 256 = v / 256 ^ i % 256 := by
  have hsplit : 256 ^ s = 256 ^ i * 256 ^ (s - i) := by
    rw [← pow_add]
    congr 1
    omega
  have hdvd : 256 ∣ 256 ^ (s - i) := dvd_pow_self 256 (by omega)
  rw [hsplit, Nat.mod_mul_right_div_self, Nat.mod_mod_of_dvd _ hdvd]

theorem written_WRITEADDR_le8 (c : Cursor) (v s : Nat) (hs : s ≤ 8) :
    written c (WRITEADDR c v s) = (List.range s).map fun i => (v >>> (8 * i)) % 256 := by
  rw [written_WRITEADDR]
  apply List.map_congr_left
  intro i hi
  exact uint64_shift_byte v i (by have := List.mem_range.mp hi; omega)

theorem readLE_written (c : Cursor) (v s : Nat) (hs : s ≤ 8) :
    readLE (written c (WRITEADDR c v s)) = v % 2 ^ (8 * s) := by
  rw [written_WRITEADDR_le8 c v s hs, readLE_bytes, pow_mul]
  norm_num

theorem int32_of_range (s : Nat) (hs : (s : Int) ≤ INT_MAX) : int32 (s : Int) = (s : Int) := by
  unfold int32
  unfold INT_MAX at hs
  have h0 : (0 : Int) ≤ s := Int.natCast_nonneg s
  norm_num
  omega

theorem WRITEADDR_step_succ (n v : Nat) (c : Cursor) :
    WRITEADDR_step ⟨((n + 1 : Nat) : Int), v, c⟩
      = LoopStep.body ⟨(n : Int), v >>> 8, WRITECHAR c v⟩ := by
  have hne : ((n + 1 : Nat) : Int) ≠ 0 := by omega
  have hmin : ((n + 1 : Nat) : Int) ≠ INT_MIN := by unfold INT_MIN; omega
  have hpred : ((n + 1 : Nat) : Int) - 1 = (n : Int) := by omega
  simp only [WRITEADDR_step, if_neg hne, if_neg hmin, hpred]

theorem WRITEADDR_step_zero (v : Nat) (c : Cursor) :
    WRITEADDR_step ⟨((0 : Nat) : Int), v, c⟩ = LoopStep.stop c := by
  simp [WRITEADDR_step]

theorem WRITEADDR_run_exact (s : Nat) : ∀ (fuel v : Nat) (c : Cursor), s < fuel →
    WRITEADDR_run fuel ⟨(s : Int), v, c⟩ = some (s, WRITEADDR_loop s v c) := by
  induction s with
  | zero =>
    intro fuel v c hf
    obtain ⟨f, rfl⟩ : ∃ f, fuel = f + 1 := ⟨fuel - 1, by omega⟩
    simp only [WRITEADDR_run, WRITEADDR_step_zero, WRITEADDR_loop]
  | succ n ih =>
    intro fuel v c hf
    obtain ⟨f, rfl⟩ : ∃ f, fuel = f + 1 := ⟨fuel - 1, by omega⟩
    simp only [WRITEADDR_run, WRITEADDR_step_succ, ih f _ _ (by omega),
      Option.map_some', WRITEADDR_loop]

theorem WRITEADDR_run_short (s : Nat) : ∀ (fuel v : Nat) (c : Cursor), fuel ≤ s →
    WRITEADDR_run fuel ⟨(s : Int), v, c⟩ = none := by
  induction s with
  | zero =>
    intro fuel v c hf
    obtain rfl : fuel = 0 := by omega
    rfl
  | succ n ih =>
    intro fuel v c hf
    cases fuel with
    | zero => rfl
    | succ f =>
      simp only [WRITEADDR_run, WRITEADDR_step_succ, ih f _ _ (by omega),
        Option.map_none']

theorem WRITEADDR_exec_of_range (c : Cursor) (v s fuel : Nat) (hs : (s : Int) ≤ INT_MAX) :
    WRITEADDR_exec fuel c v (s : Int) = WRITEADDR_run fuel ⟨(s : Int), uint64 v, c⟩ := by
  unfold WRITEADDR_exec
  rw [int32_of_range s hs]

theorem Mem.store_frame (m : Mem) (a : Nat) (bs : List Nat) (x : Nat)
    (hx : x < a ∨ a + bs.length ≤ x) : m.store a bs x = m x := by
  rw [Mem.store_apply, if_neg (by omega)]

theorem high_bytes_zero (v i : Nat) (hi : 8 ≤ i) : (uint64 v >>> (8 * i)) % 256 = 0 := by
  have h1 : uint64 v < 2 ^ 64 := Nat.mod_lt _ (by norm_num)
  have h2 : (2 : Nat) ^ 64 ≤ 2 ^ (8 * i) := Nat.pow_le_pow_right (by norm_num) (by omega)
  rw [Nat.shiftRight_eq_div_pow, Nat.div_eq_of_lt (lt_of_lt_of_le h1 h2)]

theorem written_WRITEADDR_gt8 (c : Cursor) (v s : Nat) (hs : 8 < s) :
    written c (WRITEADDR c v s)
      = ((List.range 8).map fun i => (v >>> (8 * i)) % 256) ++ List.replicate (s - 8) 0 := by
  obtain ⟨t, rfl⟩ : ∃ t, s = 8 + t := ⟨s - 8, by omega⟩
  rw [written_WRITEADDR, List.range_add, List.map_append, Nat.add_sub_cancel_left]
  congr 1
  · apply List.map_congr_left
    intro i hi
    exact uint64_shift_byte v i (List.mem_range.mp hi)
  · rw [List.eq_replicate_iff]
    refine ⟨by simp, ?_⟩
    intro b hb
    simp only [List.mem_map, List.mem_range] at hb
    obtain ⟨j, ⟨i, _, rfl⟩, rfl⟩ := hb
    exact high_bytes_zero v (8 + i) (by omega)

theorem strcmp_self (a : List Char) : strcmp a a = 0 := by
  induction a with
  | nil => rfl
  | cons x t ih => simp [strcmp, ih]

theorem strcmp_eq_zero (a : List Char) : ∀ b, strcmp a b = 0 → a = b := by
  induction a with
  | nil =>
    intro b h
    cases b with
    | nil => rfl
    | cons y u => simp [strcmp] at h
  | cons x t ih =>
    intro b h
    cases b with
    | nil => simp [strcmp] at h
    | cons y u =>
      simp only [strcmp] at h
      by_cases h1 : x.toNat < y.toNat
      · rw [if_pos h1] at h
        omega
      · rw [if_neg h1] at h
        by_cases h2 : y.toNat < x.toNat
        · rw [if_pos h2] at h
          omega
        · rw [if_neg h2] at h
          have hxy : x = y := by
            rw [← Char.ofNat_toNat x, ← Char.ofNat_toNat y]
            congr 1
            omega
          rw [hxy, ih u h]

theorem strcmp_antisymm (a : List Char) : ∀ b, strcmp a b < 0 → 0 < strcmp b a := by
  induction a with
  | nil =>
    intro b h
    cases b with
    | nil => simp [strcmp] at h
    | cons y u => simp [strcmp]
  | cons x t ih =>
    intro b h
    cases b with
    | nil => simp [strcmp] at h
    | cons y u =>
      simp only [strcmp] at h ⊢
      by_cases h1 : x.toNat < y.toNat
      · have h2 : ¬ y.toNat < x.toNat := by omega
        rw [if_neg h2, if_pos h1]
        omega
      · rw [if_neg h1] at h
        by_cases h2 : y.toNat < x.toNat
        · rw [if_pos h2] at h
          omega
        · rw [if_neg h2] at h
          rw [if_neg h2, if_neg h1]
          exact ih u h

theorem bsearch_spec (key : List Char → List Char) (cmp : List Char → List Char → Int)
    (hcmp : ∀ a b, cmp a b = strcmp (key a) (key b))
    (string : List Char) (array : List (List Char)) (size : Nat)
    (hsorted : sortedUnder cmp array size) :
    ∀ fuel lo hi, hi ≤ size → hi - lo ≤ fuel →
      (∀ m, m < size → key (array.getD m []) = key string → lo ≤ m ∧ m < hi) →
      (∃ i : Nat, bsearch cmp string array fuel lo hi = (i : Int) ∧ i < size ∧
          key (array.getD i []) = key string) ∨
      (bsearch cmp string array fuel lo hi = -1 ∧
          ∀ m, m < size → key (array.getD m []) ≠ key string) := by
  intro fuel
  induction fuel with
  | zero =>
    intro lo hi _ hfuel hwin
    right
    refine ⟨rfl, ?_⟩
    intro m hm hkey
    have := hwin m hm hkey
    omega
  | succ f ih =>
    intro lo hi hhi hfuel hwin
    by_cases hlt : lo < hi
    · have hk1 : lo ≤ (lo + hi) / 2 := by omega
      have hk2 : (lo + hi) / 2 < hi := by omega
      simp only [bsearch, if_pos hlt]
      by_cases hneg : cmp string (array.getD ((lo + hi) / 2) []) < 0
      · rw [if_pos hneg]
        apply ih lo ((lo + hi) / 2) (by omega) (by omega)
        intro m hm hkey
        have hw := hwin m hm hkey
        refine ⟨hw.1, ?_⟩
        by_contra hge
        have hneg2 : strcmp (key string) (key (array.getD ((lo + hi) / 2) [])) < 0 := by
          rw [← hcmp]; exact hneg
        rcases Nat.eq_or_lt_of_le (Nat.le_of_not_lt hge) with heq | hkm
        · rw [heq, hkey, strcmp_self] at hneg2
          omega
        · have hs := hsorted m hm ((lo + hi) / 2) hkm
          rw [hcmp, hkey] at hs
          have := strcmp_antisymm _ _ hneg2
          omega
      · rw [if_neg hneg]
        by_cases hpos : cmp string (array.getD ((lo + hi) / 2) []) > 0
        · rw [if_pos hpos]
          apply ih ((lo + hi) / 2 + 1) hi hhi (by omega)
          intro m hm hkey
          have hw := hwin m hm hkey
          refine ⟨?_, hw.2⟩
          by_contra hle
          have hpos2 : strcmp (key string) (key (array.getD ((lo + hi) / 2) [])) > 0 := by
            rw [← hcmp]; exact hpos
          rcases Nat.eq_or_lt_of_le (Nat.le_of_lt_succ (Nat.lt_of_not_le hle)) with heq | hmk
          · rw [← heq, hkey, strcmp_self] at hpos2
            omega
          · have hs := hsorted ((lo + hi) / 2) (by omega) m hmk
            rw [hcmp, hkey] at hs
            omega
        · rw [if_neg hpos]
          left
          refine ⟨(lo + hi) / 2, rfl, by omega, ?_⟩
          have hzero : strcmp (key string) (key (array.getD ((lo + hi) / 2) [])) = 0 := by
            rw [← hcmp]; omega
          exact (strcmp_eq_zero _ _ hzero).symm
    · right
      refine ⟨by simp only [bsearch, if_neg hlt], ?_⟩
      intro m hm hkey
      have := hwin m hm hkey
      omega

theorem search_correct (key : List Char → List Char) (cmp : List Char → List Char → Int)
    (hcmp : ∀ a b, cmp a b = strcmp (key a) (key b))
    (string : List Char) (array : List (List Char)) (size : Nat)
    (hsorted : sortedUnder cmp array size) :
    ((∃ m, m < size ∧ key (array.getD m []) = key string) →
      ∃ i : Nat, bsearch cmp string array size 0 size = (i : Int) ∧ i < size ∧
        key (array.getD i []) = key string) ∧
    ((¬ ∃ m, m < size ∧ key (array.getD m []) = key string) →
      bsearch cmp string array size 0 size < 0) := by
  have h := bsearch_spec key cmp hcmp string array size hsorted size 0 size
    (le_refl _) (by omega) (fun m hm _ => ⟨Nat.zero_le _, hm⟩)
  constructor
  · rintro ⟨m, hm, hkey⟩
    rcases h with hfound | ⟨_, hnone⟩
    · exact hfound
    · exact absurd hkey (hnone m hm)
  · intro hno
    rcases h with ⟨i, _, hi, hkey⟩ | ⟨hres, _⟩
    · exact absurd ⟨i, hi, hkey⟩ hno
    · rw [hres]
      decide

/-! ## Theorems -/

/-- C1: each portable fixed-width writer (WRITECHAR, WRITESHORT, WRITELONG,
WRITEDLONG, widths 1, 2, 4, 8) stores the byte `(v >> 8*i) mod 256` at offset
`i` from the starting cursor, for every `i` below its width. -/
theorem portable_fixed_width_bytes (c : Cursor) (v i : Nat) :
    (i < 1 → (WRITECHAR c v).mem (c.p + i) = (v >>> (8 * i)) % 256) ∧
    (i < 2 → (WRITESHORT c v).mem (c.p + i) = (v >>> (8 * i)) % 256) ∧
    (i < 4 → (WRITELONG c v).mem (c.p + i) = (v >>> (8 * i)) % 256) ∧
    (i < 8 → (WRITEDLONG c v).mem (c.p + i) = (v >>> (8 * i)) % 256) := by
  refine ⟨?_, ?_, ?_, ?_⟩ <;> intro hi <;> interval_cases i <;>
    simp [WRITECHAR, WRITESHORT, WRITELONG, WRITEDLONG, Mem.set, uint8, uint16,
      uint32, uint64, Nat.shiftRight_eq_div_pow] <;> omega

/-- Witness for C1: the third byte (offset 2) of each of WRITELONG and
WRITEDLONG of `0x1122334455667788` at cursor 100, and the first byte of
WRITECHAR and WRITESHORT. -/
theorem portable_fixed_width_bytes_witness :
    (WRITECHAR ⟨fun _ => 0, 100⟩ 0x1122334455667788).mem 100 = 0x88 ∧
    (WRITESHORT ⟨fun _ => 0, 100⟩ 0x1122334455667788).mem 101 = 0x77 ∧
    (WRITELONG ⟨fun _ => 0, 100⟩ 0x1122334455667788).mem 102 = 0x66 ∧
    (WRITEDLONG ⟨fun _ => 0, 100⟩ 0x1122334455667788).mem 107 = 0x11 :=
  ⟨(portable_fixed_width_bytes ⟨fun _ => 0, 100⟩ 0x1122334455667788 0).1 (by decide),
   (portable_fixed_width_bytes ⟨fun _ => 0, 100⟩ 0x1122334455667788 1).2.1 (by decide),
   (portable_fixed_width_bytes ⟨fun _ => 0, 100⟩ 0x1122334455667788 2).2.2.1 (by decide),
   (portable_fixed_width_bytes ⟨fun _ => 0, 100⟩ 0x1122334455667788 7).2.2.2 (by decide)⟩

/-- C2: for `1 <= s <= 8` the portable WRITEADDR(p, v, s) writes exactly `s`
bytes: the cursor ends `s` past its start, every address outside the `s`
bytes from the old cursor keeps its content, and the byte at offset `i < s`
is `(v >> 8*i) mod 256`. -/
theorem portable_WRITEADDR_bytes (c : Cursor) (v s : Nat) (h1 : 1 ≤ s) (h8 : s ≤ 8) :
    (WRITEADDR c v s).p = c.p + s ∧
    (∀ x, x < c.p ∨ c.p + s ≤ x → (WRITEADDR c v s).mem x = c.mem x) ∧
    (∀ i, i < s → (WRITEADDR c v s).mem (c.p + i) = (v >>> (8 * i)) % 256) ∧
    written c (WRITEADDR c v s) = (List.range s).map fun i => (v >>> (8 * i)) % 256 := by
  have _ := h1
  refine ⟨WRITEADDR_loop_p s _ c, fun x hx => WRITEADDR_loop_frame s _ c x hx, ?_, ?_⟩
  · intro i hi
    rw [← uint64_shift_byte v i (by omega)]
    exact WRITEADDR_loop_byte s _ c i hi
  · rw [written_WRITEADDR]
    apply List.map_congr_left
    intro i hi
    exact uint64_shift_byte v i (by have := List.mem_range.mp hi; omega)

/-- Witness for C2: WRITEADDR of `0x0102030405060708` with size 3 at cursor
10 of a zeroed buffer. -/
theorem portable_WRITEADDR_bytes_witness :
    (1 ≤ 3 ∧ 3 ≤ 8) ∧
    written ⟨fun _ => 0, 10⟩ (WRITEADDR ⟨fun _ => 0, 10⟩ 0x0102030405060708 3)
      = [0x08, 0x07, 0x06] :=
  ⟨by decide,
   (portable_WRITEADDR_bytes ⟨fun _ => 0, 10⟩ 0x0102030405060708 3
      (by decide) (by decide)).2.2.2⟩

/-- C3: on a little-endian host the fast (X86_MEMORY) variants of WRITECHAR,
WRITESHORT, WRITELONG, WRITEDLONG, and of WRITEADDR for `1 <= s <= 8`, leave
the buffer and the cursor in exactly the state the portable variants do. -/
theorem x86_little_eq_portable (c : Cursor) (v : Nat) :
    X86.WRITECHAR Endian.little c v = WRITECHAR c v ∧
    X86.WRITESHORT Endian.little c v = WRITESHORT c v ∧
    X86.WRITELONG Endian.little c v = WRITELONG c v ∧
    X86.WRITEDLONG Endian.little c v = WRITEDLONG c v ∧
    ∀ s, 1 ≤ s → s ≤ 8 → X86.WRITEADDR Endian.little c v s = some (WRITEADDR c v s) :=
  ⟨(X86_fixed_little c v).1, (X86_fixed_little c v).2.1, (X86_fixed_little c v).2.2.1,
   (X86_fixed_little c v).2.2.2, fun s _ h8 => X86_WRITEADDR_little c v s h8⟩

/-- Witness for C3: the fast WRITEADDR of size 5 on a little-endian host. -/
theorem x86_little_eq_portable_witness :
    (1 ≤ 5 ∧ 5 ≤ 8) ∧
    X86.WRITEADDR Endian.little ⟨fun _ => 0, 10⟩ 0x0102030405060708 5
      = some (WRITEADDR ⟨fun _ => 0, 10⟩ 0x0102030405060708 5) :=
  ⟨by decide,
   (x86_little_eq_portable ⟨fun _ => 0, 10⟩ 0x0102030405060708).2.2.2.2 5
      (by decide) (by decide)⟩

/-- C4, counterexample: with X86_MEMORY set, WRITESHORT of `0x0102` produces
`02 01` on a little-endian host and `01 02` on a big-endian host, while the
portable variant on the big-endian host produces `02 01`. -/
theorem fast_path_differs_on_big_endian :
    written ⟨fun _ => 0, 0⟩
        (Build.WRITESHORT ⟨Endian.little, true⟩ ⟨fun _ => 0, 0⟩ 0x0102) = [0x02, 0x01] ∧
    written ⟨fun _ => 0, 0⟩
        (Build.WRITESHORT ⟨Endian.big, true⟩ ⟨fun _ => 0, 0⟩ 0x0102) = [0x01, 0x02] ∧
    written ⟨fun _ => 0, 0⟩
        (Build.WRITESHORT ⟨Endian.big, false⟩ ⟨fun _ => 0, 0⟩ 0x0102) = [0x02, 0x01] ∧
    written ⟨fun _ => 0, 0⟩
        (Build.WRITESHORT ⟨Endian.little, true⟩ ⟨fun _ => 0, 0⟩ 0x0102)
      ≠ written ⟨fun _ => 0, 0⟩
        (Build.WRITESHORT ⟨Endian.big, true⟩ ⟨fun _ => 0, 0⟩ 0x0102) := by
  decide

/-- C4, amended: two builds in each of which X86_MEMORY is set only on a
little-endian host (one may be big-endian and portable, the other
little-endian and fast) leave the same buffer and cursor, namely those of the
portable variant, for every value and every width; the one-byte fast writer
does so on either host. -/
theorem writers_agree_across_hosts (b1 b2 : Build)
    (h1 : b1.X86_MEMORY = true → b1.host = Endian.little)
    (h2 : b2.X86_MEMORY = true → b2.host = Endian.little) (c : Cursor) (v : Nat) :
    (b1.WRITECHAR c v = b2.WRITECHAR c v ∧ b1.WRITECHAR c v = WRITECHAR c v) ∧
    (b1.WRITESHORT c v = b2.WRITESHORT c v ∧ b1.WRITESHORT c v = WRITESHORT c v) ∧
    (b1.WRITELONG c v = b2.WRITELONG c v ∧ b1.WRITELONG c v = WRITELONG c v) ∧
    (b1.WRITEDLONG c v = b2.WRITEDLONG c v ∧ b1.WRITEDLONG c v = WRITEDLONG c v) ∧
    (∀ s, 1 ≤ s → s ≤ 8 →
      b1.WRITEADDR c v s = b2.WRITEADDR c v s ∧
      b1.WRITEADDR c v s = some (WRITEADDR c v s)) ∧
    (∀ h, X86.WRITECHAR h c v = WRITECHAR c v) := by
  obtain ⟨e1, e2, e3, e4⟩ := X86_fixed_little c v
  have key : ∀ b : Build, (b.X86_MEMORY = true → b.host = Endian.little) →
      b.WRITECHAR c v = WRITECHAR c v ∧ b.WRITESHORT c v = WRITESHORT c v ∧
      b.WRITELONG c v = WRITELONG c v ∧ b.WRITEDLONG c v = WRITEDLONG c v ∧
      ∀ s, s ≤ 8 → b.WRITEADDR c v s = some (WRITEADDR c v s) := by
    intro b hb
    rcases b with ⟨host, x86⟩
    cases x86
    · simp [Build.WRITECHAR, Build.WRITESHORT, Build.WRITELONG, Build.WRITEDLONG,
        Build.WRITEADDR]
    · have hh : host = Endian.little := hb rfl
      subst hh
      simp only [Build.WRITECHAR, Build.WRITESHORT, Build.WRITELONG, Build.WRITEDLONG,
        Build.WRITEADDR, if_true, e1, e2, e3, e4, true_and]
      exact fun s hs => X86_WRITEADDR_little c v s hs
  obtain ⟨a1, a2, a3, a4, a5⟩ := key b1 h1
  obtain ⟨d1, d2, d3, d4, d5⟩ := key b2 h2
  refine ⟨⟨a1.trans d1.symm, a1⟩, ⟨a2.trans d2.symm, a2⟩, ⟨a3.trans d3.symm, a3⟩,
    ⟨a4.trans d4.symm, a4⟩, ?_, fun h => X86_WRITECHAR_any_host h c v⟩
  intro s _ h8
  exact ⟨(a5 s h8).trans (d5 s h8).symm, a5 s h8⟩

/-- Witness for C4: a big-endian portable build and a little-endian fast
build, WRITELONG of `0xdeadbeef`. -/
theorem writers_agree_across_hosts_witness :
    Build.WRITELONG ⟨Endian.big, false⟩ ⟨fun _ => 0, 4⟩ 0xdeadbeef
      = Build.WRITELONG ⟨Endian.little, true⟩ ⟨fun _ => 0, 4⟩ 0xdeadbeef :=
  (writers_agree_across_hosts ⟨Endian.big, false⟩ ⟨Endian.little, true⟩
    (by decide) (by decide) ⟨fun _ => 0, 4⟩ 0xdeadbeef).2.2.1.1

/-- C5: for every value and every width the bytes the stream writer appends
(fwriteint8_t, fwriteint16_t, fwriteint32_t, fwriteint64_t, and fwriteaddr for
`1 <= s <= 8`) are the bytes the in-memory writer of that width stores in the
buffer; fwriteint8_t, which is putc, appends the single byte `d mod 256` that
WRITECHAR stores. -/
theorem stream_bytes_eq_memory_bytes (c : Cursor) (v : Nat) (fp : FILE) :
    fwriteint8_t v fp = fp ++ written c (WRITECHAR c v) ∧
    fwriteint8_t v fp = fp ++ [v % 256] ∧
    (WRITECHAR c v).mem c.p = v % 256 ∧
    fwriteint16_t v fp = fp ++ written c (WRITESHORT c v) ∧
    fwriteint32_t v fp = fp ++ written c (WRITELONG c v) ∧
    fwriteint64_t v fp = fp ++ written c (WRITEDLONG c v) ∧
    ∀ s, 1 ≤ s → s ≤ 8 → fwriteaddr v s fp = fp ++ written c (WRITEADDR c v s) := by
  refine ⟨?_, ?_, ?_, ?_, ?_, ?_, ?_⟩
  · simp [fwriteint8_t, putc, written, WRITECHAR, Mem.read, Mem.set, uint8,
      List.range, List.range.loop]
  · simp [fwriteint8_t, putc, uint8]
  · simp [WRITECHAR, Mem.set, uint8]
  · simp [fwriteint16_t, streamBytes, written, WRITESHORT, Mem.read, Mem.set, uint8,
      List.range, List.range.loop, Nat.shiftRight_eq_div_pow]
  · simp [fwriteint32_t, streamBytes, written, WRITELONG, Mem.read, Mem.set, uint8,
      List.range, List.range.loop, Nat.shiftRight_eq_div_pow]
  · simp [fwriteint64_t, streamBytes, written, WRITEDLONG, Mem.read, Mem.set, uint8,
      List.range, List.range.loop, Nat.shiftRight_eq_div_pow]
  · intro s _ _
    rw [written_WRITEADDR, fwriteaddr, streamBytes]
    congr 1
    apply List.map_congr_left
    intro i _
    rw [Nat.shiftRight_eq_div_pow, pow_mul]
    norm_num

/-- Witness for C5: fwriteaddr of size 3 after one earlier byte on the
stream. -/
theorem stream_bytes_eq_memory_bytes_witness :
    (1 ≤ 3 ∧ 3 ≤ 8) ∧
    fwriteaddr 0x0102030405060708 3 [0xff]
      = [0xff] ++ written ⟨fun _ => 0, 10⟩ (WRITEADDR ⟨fun _ => 0, 10⟩ 0x0102030405060708 3) :=
  ⟨by decide,
   (stream_bytes_eq_memory_bytes ⟨fun _ => 0, 10⟩ 0x0102030405060708 [0xff]).2.2.2.2.2.2 3
      (by decide) (by decide)⟩

/-- C6: every in-memory writer advances the cursor by the number of bytes it
writes: by 1, 2, 4, 8 for WRITECHAR, WRITESHORT, WRITELONG, WRITEDLONG and by
`s` for WRITEADDR(p, v, s) with `0 <= s <= 8`, in the portable variant and in
the fast variant on either host. -/
theorem cursor_advance (h : Endian) (c : Cursor) (v : Nat) :
    ((WRITECHAR c v).p = c.p + 1 ∧ (X86.WRITECHAR h c v).p = c.p + 1) ∧
    ((WRITESHORT c v).p = c.p + 2 ∧ (X86.WRITESHORT h c v).p = c.p + 2) ∧
    ((WRITELONG c v).p = c.p + 4 ∧ (X86.WRITELONG h c v).p = c.p + 4) ∧
    ((WRITEDLONG c v).p = c.p + 8 ∧ (X86.WRITEDLONG h c v).p = c.p + 8) ∧
    ∀ s, s ≤ 8 →
      (WRITEADDR c v s).p = c.p + s ∧
      ∃ d, X86.WRITEADDR h c v s = some d ∧ d.p = c.p + s := by
  refine ⟨⟨rfl, rfl⟩, ⟨rfl, rfl⟩, ⟨rfl, rfl⟩, ⟨rfl, rfl⟩, ?_⟩
  intro s hs
  refine ⟨WRITEADDR_loop_p s _ c, ?_⟩
  have hlen : s ≤ (objrep h 8 (uint64 v)).length := by
    rw [objrep_length]; exact hs
  simp [X86.WRITEADDR, memcpy, hlen]

/-- Witness for C6: WRITEADDR of size 8, portable and fast on a big-endian
host, from cursor 3. -/
theorem cursor_advance_witness :
    8 ≤ 8 ∧
    (WRITEADDR ⟨fun _ => 0, 3⟩ 0x0102 8).p = 3 + 8 ∧
    ∃ d, X86.WRITEADDR Endian.big ⟨fun _ => 0, 3⟩ 0x0102 8 = some d ∧ d.p = 3 + 8 :=
  ⟨by decide, (cursor_advance Endian.big ⟨fun _ => 0, 3⟩ 0x0102).2.2.2.2 8 (by decide)⟩

/-- C7: the severity encoding is losslessly decodable: for every level among
ERR_DEBUG, ERR_WARNING, ERR_NONFATAL, ERR_FATAL, ERR_PANIC, every choice of the
modifier bits ERR_NOFILE, ERR_USAGE, ERR_PASS1 and every warning class
`0 <= c <= 255`, the value `sev = L | modifiers | WARN(c)` has
`sev & ERR_MASK = L`, `(sev & ERR_WARN_MASK) >> ERR_WARN_SHR = c`, and each
modifier bit is set in `sev` exactly when it was chosen. -/
theorem severity_decodable (level : Nat) (hl : level ∈ levels)
    (nofile usage pass1 : Bool) (cls : Nat) (hc : cls ≤ 255) :
    severity level nofile usage pass1 cls &&& ERR_MASK = level ∧
    (severity level nofile usage pass1 cls &&& ERR_WARN_MASK) >>> ERR_WARN_SHR = cls ∧
    (severity level nofile usage pass1 cls &&& ERR_NOFILE ≠ 0 ↔ nofile = true) ∧
    (severity level nofile usage pass1 cls &&& ERR_USAGE ≠ 0 ↔ usage = true) ∧
    (severity level nofile usage pass1 cls &&& ERR_PASS1 ≠ 0 ↔ pass1 = true) :=
  decodes_all level hl nofile usage pass1 cls (by omega)

/-- Witness for C7: ERR_NONFATAL with ERR_NOFILE and ERR_PASS1 and warning
class 200. -/
theorem severity_decodable_witness :
    (ERR_NONFATAL ∈ levels ∧ 200 ≤ 255) ∧
    severity ERR_NONFATAL true false true 200 = 0xC851 ∧
    severity ERR_NONFATAL true false true 200 &&& ERR_MASK = ERR_NONFATAL ∧
    (severity ERR_NONFATAL true false true 200 &&& ERR_WARN_MASK) >>> ERR_WARN_SHR = 200 :=
  ⟨by decide, by decide,
   (severity_decodable ERR_NONFATAL (by decide) true false true 200 (by decide)).1,
   (severity_decodable ERR_NONFATAL (by decide) true false true 200 (by decide)).2.1⟩

/-- C8: the nine named suppressible-warning constants are pairwise distinct,
none has a bit set outside ERR_WARN_MASK, and their selectors
`value >> ERR_WARN_SHR` are exactly 1, 2, ..., 9, with ERR_WARN_MAX = 9 the
largest. -/
theorem warn_codes_distinct_selectors :
    warnCodes.Nodup ∧
    warnCodes.length = 9 ∧
    warnCodes.map (fun w => w &&& ERR_WARN_MASK) = warnCodes ∧
    warnCodes.map (fun w => w >>> ERR_WARN_SHR) = [1, 2, 3, 4, 5, 6, 7, 8, 9] ∧
    ERR_WARN_MAX = 9 ∧
    (warnCodes.map (fun w => w >>> ERR_WARN_SHR)).max? = some ERR_WARN_MAX := by
  decide

/-- C9, counterexample: the 20-digit string `18446744073709551616` (2^64)
is read without error as 0, not as its decimal value. -/
theorem readnum_wraps_at_two_pow_64 :
    isDecimal 
      ['1','8','4','4','6','7','4','4','0','7','3','7','0','9','5','5','1','6','1','6'] ∧
    decimalValue 
      ['1','8','4','4','6','7','4','4','0','7','3','7','0','9','5','5','1','6','1','6'] = 18446744073709551616 ∧
    readnum 
      ['1','8','4','4','6','7','4','4','0','7','3','7','0','9','5','5','1','6','1','6'] = (0, false) ∧
    (readnum 
      ['1','8','4','4','6','7','4','4','0','7','3','7','0','9','5','5','1','6','1','6']).1 ≠ (decimalValue 
      ['1','8','4','4','6','7','4','4','0','7','3','7','0','9','5','5','1','6','1','6'] : Int) := by
  refine ⟨?_, ?_, ?_, ?_⟩
  · unfold isDecimal; decide
  · decide
  · decide
  · decide

/-- C9, amended: for every non-empty string of the digits 0-9 only, readnum
sets `*error` to false and returns the decimal value of the string converted
to `int64_t` (reduced modulo 2^64 into the signed range, so its 64-bit pattern
is the value modulo 2^64); the returned value is the exact decimal value
whenever that value is below 2^63. -/
theorem readnum_decimal (str : List Char) (h : isDecimal str) :
    readnum str = (int64 (decimalValue str), false) ∧
    bits64 (readnum str).1 = decimalValue str % 2 ^ 64 ∧
    (decimalValue str < 2 ^ 63 → readnum str = ((decimalValue str : Int), false)) := by
  have hrun : digitRun 10 0 str = some (decimalValue str) := by
    rw [digitRun_digits str 0 h.2]; simp
  have hmain : readnum str = (int64 (decimalValue str), false) := by
    simp [readnum, splitSign_digits str h, splitRadix_digits str h, h.1, hrun]
  refine ⟨hmain, ?_, fun hlt => by rw [hmain, int64_of_small _ hlt]⟩
  rw [hmain]
  exact bits64_int64 _

/-- Witness for C9: the string `12345`. -/
theorem readnum_decimal_witness :
    isDecimal ['1', '2', '3', '4', '5'] ∧
    decimalValue ['1', '2', '3', '4', '5'] = 12345 ∧
    readnum ['1', '2', '3', '4', '5'] = (12345, false) := by
  have hd : isDecimal ['1', '2', '3', '4', '5'] := by unfold isDecimal; decide
  have hv : decimalValue ['1', '2', '3', '4', '5'] = 12345 := by decide
  refine ⟨hd, hv, ?_⟩
  have h := (readnum_decimal ['1', '2', '3', '4', '5'] hd).2.2 (by rw [hv]; norm_num)
  rw [hv] at h
  exact h

/-- C10: for every byte sequence of length `n`, readstrnum returns the
integer whose bits `[8*i, 8*i+8)` hold byte `i` for every `i < min(n, 8)` and
whose other bits are clear (byte 0 least significant, bytes from index 8 on
discarded), and sets `*warn` to true exactly when `n > 8`; `[0x41, 0x42]`
yields `0x4241` with `*warn` false, and every 9-byte sequence yields `*warn`
true. -/
theorem readstrnum_packs (str : List Nat) :
    (∀ i, i < min str.length 8 →
      (bits64 (readstrnum str).1 >>> (8 * i)) % 256 = uint8 (str.getD i 0)) ∧
    bits64 (readstrnum str).1 < 2 ^ (8 * min str.length 8) ∧
    (readstrnum str).1 = (readstrnum (str.take 8)).1 ∧
    ((readstrnum str).2 = true ↔ 8 < str.length) ∧
    readstrnum [0x41, 0x42] = (0x4241, false) ∧
    (str.length = 9 → (readstrnum str).2 = true) := by
  have hbits : bits64 (readstrnum str).1 = packBytes (str.take 8) :=
    bits64_int64_of_lt _ (packBytes_take8_lt str)
  have hlen : (str.take 8).length = min str.length 8 := by
    rw [List.length_take, Nat.min_comm]
  refine ⟨?_, ?_, ?_, ?_, ?_, ?_⟩
  · intro i hi
    have hi8 : i < 8 := lt_of_lt_of_le hi (Nat.min_le_right _ _)
    have hget : (str.take 8).getD i 0 = str.getD i 0 := by
      rw [List.getD_eq_getElem?_getD, List.getD_eq_getElem?_getD,
        List.getElem?_take_of_lt hi8]
    rw [hbits, Nat.shiftRight_eq_div_pow, pow_mul,
      show (2 : Nat) ^ 8 = 256 from by norm_num,
      packBytes_byte _ i (by rw [hlen]; exact hi), hget]
  · rw [hbits, pow_mul, show (2 : Nat) ^ 8 = 256 from by norm_num, ← hlen]
    exact packBytes_lt _
  · simp [readstrnum, List.take_take]
  · simp [readstrnum]
  · decide
  · intro h9
    simp [readstrnum, h9]

/-- Witness for C10: the 9-byte sequence `1, 2, ..., 9`; byte 7 of the result
is 8, and `*warn` is true. -/
theorem readstrnum_packs_witness :
    (7 < min [1, 2, 3, 4, 5, 6, 7, 8, 9].length 8 ∧ [1, 2, 3, 4, 5, 6, 7, 8, 9].length = 9) ∧
    (bits64 (readstrnum [1, 2, 3, 4, 5, 6, 7, 8, 9]).1 >>> (8 * 7)) % 256 = 8 ∧
    (readstrnum [1, 2, 3, 4, 5, 6, 7, 8, 9]).2 = true :=
  ⟨by decide,
   (readstrnum_packs [1, 2, 3, 4, 5, 6, 7, 8, 9]).1 7 (by decide),
   (readstrnum_packs [1, 2, 3, 4, 5, 6, 7, 8, 9]).2.2.2.2.2 (by decide)⟩

/-- C12: for every array whose first `size` entries are sorted in the order
the search uses (strcmp order for bsi, case-folded order for bsii) and every
needle, the search returns an index `i` with `0 <= i < size` whose entry
matches the needle (exactly for bsi, ignoring case for bsii) when such an
entry exists, and a negative value when none exists. The last conjunct is the
example of the spec on the table apple, mid, zeta. -/
theorem search_finds_match (string : List Char) (array : List (List Char)) (size : Nat)
    (hsize : size ≤ array.length) :
    (sortedUnder strcmp array size →
      ((∃ m, m < size ∧ array.getD m [] = string) →
        ∃ i : Nat, bsi string array size = (i : Int) ∧ i < size ∧
          array.getD i [] = string) ∧
      ((¬ ∃ m, m < size ∧ array.getD m [] = string) → bsi string array size < 0)) ∧
    (sortedUnder nasm_stricmp array size →
      ((∃ m, m < size ∧ foldCase (array.getD m []) = foldCase string) →
        ∃ i : Nat, bsii string array size = (i : Int) ∧ i < size ∧
          foldCase (array.getD i []) = foldCase string) ∧
      ((¬ ∃ m, m < size ∧ foldCase (array.getD m []) = foldCase string) →
        bsii string array size < 0)) ∧
    (bsi ['m', 'i', 'd'] exampleTable 3 = 1 ∧ bsii ['M', 'I', 'D'] exampleTable 3 = 1 ∧
      bsi ['a', 'b', 's', 'e', 'n', 't'] exampleTable 3 < 0) := by
  have _ := hsize
  refine ⟨?_, ?_, by decide⟩
  · intro hsorted
    exact search_correct id strcmp (fun _ _ => rfl) string array size hsorted
  · intro hsorted
    exact search_correct foldCase nasm_stricmp (fun _ _ => rfl) string array size hsorted

/-- Witness for C12: the needle `zeta` in the table apple, mid, zeta, under
both searches. -/
theorem search_finds_match_witness :
    (3 ≤ exampleTable.length ∧ sortedUnder strcmp exampleTable 3 ∧
      sortedUnder nasm_stricmp exampleTable 3) ∧
    (∃ i : Nat, bsi ['z', 'e', 't', 'a'] exampleTable 3 = (i : Int) ∧ i < 3 ∧
      exampleTable.getD i [] = ['z', 'e', 't', 'a']) ∧
    (∃ i : Nat, bsii ['Z', 'e', 't', 'A'] exampleTable 3 = (i : Int) ∧ i < 3 ∧
      foldCase (exampleTable.getD i []) = foldCase ['Z', 'e', 't', 'A']) :=
  ⟨by decide,
   ((search_finds_match ['z', 'e', 't', 'a'] exampleTable 3 (by decide)).1 (by decide)).1
      ⟨2, by decide, by decide⟩,
   ((search_finds_match ['Z', 'e', 't', 'A'] exampleTable 3 (by decide)).2.1 (by decide)).1
      ⟨2, by decide, by decide⟩⟩

/-- C13: round trip. For `1 <= s <= 8` the `s` bytes written by
WRITEADDR(p, v, s), read back as a little-endian unsigned integer, give
`v mod 2^(8*s)`; the 8 bytes written by WRITEDLONG of a 64-bit `v` give `v`
itself; and two values produce the same `s` bytes exactly when they agree
modulo `2^(8*s)`. -/
theorem writeaddr_round_trip (c : Cursor) (v s : Nat) (h1 : 1 ≤ s) (h8 : s ≤ 8) :
    readLE (written c (WRITEADDR c v s)) = v % 2 ^ (8 * s) ∧
    (v < 2 ^ 64 → readLE (written c (WRITEDLONG c v)) = v) ∧
    ∀ v2, written c (WRITEADDR c v s) = written c (WRITEADDR c v2 s)
      ↔ v % 2 ^ (8 * s) = v2 % 2 ^ (8 * s) := by
  have _ := h1
  refine ⟨readLE_written c v s h8, ?_, ?_⟩
  · intro hv
    rw [← (WRITEADDR_eq_fixed c v).2.2.2, readLE_written c v 8 (le_refl 8)]
    exact Nat.mod_eq_of_lt hv
  · intro v2
    constructor
    · intro h
      have h2 := congrArg readLE h
      rwa [readLE_written c v s h8, readLE_written c v2 s h8] at h2
    · intro h
      have h256 : v % 256 ^ s = v2 % 256 ^ s := by
        have e : (2 : Nat) ^ (8 * s) = 256 ^ s := by rw [pow_mul]; norm_num
        rwa [e] at h
      rw [written_WRITEADDR_le8 c v s h8, written_WRITEADDR_le8 c v2 s h8]
      apply List.map_congr_left
      intro i hi
      have hi2 : i < s := List.mem_range.mp hi
      have e : (2 : Nat) ^ (8 * i) = 256 ^ i := by rw [pow_mul]; norm_num
      rw [Nat.shiftRight_eq_div_pow, Nat.shiftRight_eq_div_pow, e,
        ← byte_of_mod v s i hi2, ← byte_of_mod v2 s i hi2, h256]

/-- Witness for C13: the three bytes of WRITEADDR of `0x0102030405060708`
read back as `0x060708`. -/
theorem writeaddr_round_trip_witness :
    (1 ≤ 3 ∧ 3 ≤ 8) ∧
    readLE (written ⟨fun _ => 0, 10⟩ (WRITEADDR ⟨fun _ => 0, 10⟩ 0x0102030405060708 3))
      = 0x0102030405060708 % 2 ^ (8 * 3) ∧
    (0x0102030405060708 : Nat) % 2 ^ (8 * 3) = 0x060708 ∧
    readLE (written ⟨fun _ => 0, 10⟩ (WRITEDLONG ⟨fun _ => 0, 10⟩ 0x0102030405060708))
      = 0x0102030405060708 :=
  ⟨by decide,
   (writeaddr_round_trip ⟨fun _ => 0, 10⟩ 0x0102030405060708 3 (by decide) (by decide)).1,
   by decide,
   (writeaddr_round_trip ⟨fun _ => 0, 10⟩ 0x0102030405060708 3 (by decide) (by decide)).2.1
      (by norm_num)⟩

/-- C14: the arbitrary-width writer agrees with the fixed-width writers:
portable WRITEADDR(p, v, s) with `s` = 1, 2, 4, 8 leaves the buffer and the
cursor in the state WRITECHAR, WRITESHORT, WRITELONG, WRITEDLONG leave, and
each of those depends only on `v` truncated to its own width. -/
theorem writeaddr_agrees_with_fixed (c : Cursor) (v : Nat) :
    WRITEADDR c v 1 = WRITECHAR c v ∧
    WRITEADDR c v 2 = WRITESHORT c v ∧
    WRITEADDR c v 4 = WRITELONG c v ∧
    WRITEADDR c v 8 = WRITEDLONG c v ∧
    WRITECHAR c v = WRITECHAR c (v % 2 ^ 8) ∧
    WRITESHORT c v = WRITESHORT c (v % 2 ^ 16) ∧
    WRITELONG c v = WRITELONG c (v % 2 ^ 32) ∧
    WRITEDLONG c v = WRITEDLONG c (v % 2 ^ 64) := by
  obtain ⟨e1, e2, e4, e8⟩ := WRITEADDR_eq_fixed c v
  refine ⟨e1, e2, e4, e8, ?_, ?_, ?_, ?_⟩
  · simp [WRITECHAR, uint8]
  · simp [WRITESHORT, uint16]
  · simp [WRITELONG, uint32]
  · simp [WRITEDLONG, uint64]

/-- C15: writes compose by concatenation: for `a + b <= 8`, WRITEADDR(p, v, a)
followed by WRITEADDR(p, v >> 8*a, b) leaves the buffer and the cursor in the
state of the single write WRITEADDR(p, v, a + b); and WRITELONG of the low 32
bits followed by WRITELONG of the high 32 bits is WRITEDLONG of the whole
value. -/
theorem writes_compose (c : Cursor) (v a b : Nat) (hab : a + b ≤ 8) :
    WRITEADDR (WRITEADDR c v a) (v >>> (8 * a)) b = WRITEADDR c v (a + b) ∧
    WRITELONG (WRITELONG c (v % 2 ^ 32)) (v >>> 32) = WRITEDLONG c v := by
  refine ⟨WRITEADDR_compose c v a b hab, ?_⟩
  have htrunc : WRITELONG c (v % 2 ^ 32) = WRITELONG c v := by
    simp [WRITELONG, uint32]
  rw [htrunc, ← (WRITEADDR_eq_fixed c v).2.2.1, ← (WRITEADDR_eq_fixed _ (v >>> 32)).2.2.1,
    ← (WRITEADDR_eq_fixed c v).2.2.2]
  exact WRITEADDR_compose c v 4 4 (by omega)

/-- Witness for C15: three bytes, then two bytes of the value shifted right by
24 bits, against one write of five bytes. -/
theorem writes_compose_witness :
    3 + 2 ≤ 8 ∧
    WRITEADDR (WRITEADDR ⟨fun _ => 0, 10⟩ 0x0102030405060708 3)
        (0x0102030405060708 >>> (8 * 3)) 2
      = WRITEADDR ⟨fun _ => 0, 10⟩ 0x0102030405060708 (3 + 2) :=
  ⟨by decide, (writes_compose ⟨fun _ => 0, 10⟩ 0x0102030405060708 3 2 (by decide)).1⟩

/-- C16: frame. Every in-memory writer of width `w` (WRITECHAR, WRITESHORT,
WRITELONG, WRITEDLONG with `w` = 1, 2, 4, 8, and WRITEADDR with `w = s`,
`0 <= s <= 8`), portable or fast on either host, leaves unchanged every
buffer byte before the old cursor or at or after the old cursor plus `w`. -/
theorem writers_frame (h : Endian) (c : Cursor) (v x : Nat) :
    (x < c.p ∨ c.p + 1 ≤ x →
      (WRITECHAR c v).mem x = c.mem x ∧ (X86.WRITECHAR h c v).mem x = c.mem x) ∧
    (x < c.p ∨ c.p + 2 ≤ x →
      (WRITESHORT c v).mem x = c.mem x ∧ (X86.WRITESHORT h c v).mem x = c.mem x) ∧
    (x < c.p ∨ c.p + 4 ≤ x →
      (WRITELONG c v).mem x = c.mem x ∧ (X86.WRITELONG h c v).mem x = c.mem x) ∧
    (x < c.p ∨ c.p + 8 ≤ x →
      (WRITEDLONG c v).mem x = c.mem x ∧ (X86.WRITEDLONG h c v).mem x = c.mem x) ∧
    (∀ s, s ≤ 8 → (x < c.p ∨ c.p + s ≤ x) →
      (WRITEADDR c v s).mem x = c.mem x ∧
      ∃ d, X86.WRITEADDR h c v s = some d ∧ d.mem x = c.mem x) := by
  obtain ⟨f1, f2, f4, f8⟩ := fixed_mem c v x
  refine ⟨?_, ?_, ?_, ?_, ?_⟩
  · intro hx
    refine ⟨by rw [f1, if_neg (by omega)], ?_⟩
    exact Mem.store_frame _ _ _ _ (by rw [objrep_length]; exact hx)
  · intro hx
    refine ⟨by rw [f2, if_neg (by omega)], ?_⟩
    exact Mem.store_frame _ _ _ _ (by rw [objrep_length]; exact hx)
  · intro hx
    refine ⟨by rw [f4, if_neg (by omega)], ?_⟩
    exact Mem.store_frame _ _ _ _ (by rw [objrep_length]; exact hx)
  · intro hx
    refine ⟨by rw [f8, if_neg (by omega)], ?_⟩
    exact Mem.store_frame _ _ _ _ (by rw [objrep_length]; exact hx)
  · intro s hs hx
    refine ⟨by rw [WRITEADDR_mem, if_neg (by omega)], ?_⟩
    have hlen : s ≤ (objrep h 8 (uint64 v)).length := by
      rw [objrep_length]; exact hs
    refine ⟨⟨c.mem.store c.p ((objrep h 8 (uint64 v)).take s), c.p + s⟩, ?_, ?_⟩
    · simp [X86.WRITEADDR, memcpy, hlen]
    · exact Mem.store_frame _ _ _ _
        (by rw [List.length_take, objrep_length, Nat.min_eq_left hs]; exact hx)

/-- Witness for C16: a buffer holding 7 everywhere, WRITELONG at cursor 10
(portable, and fast on a big-endian host) read at address 14, and WRITEADDR of
size 3 read at address 9. -/
theorem writers_frame_witness :
    ((14 < 10 ∨ 10 + 4 ≤ 14) ∧ 3 ≤ 8 ∧ (9 < 10 ∨ 10 + 3 ≤ 9)) ∧
    ((WRITELONG ⟨fun _ => 7, 10⟩ 0xdeadbeef).mem 14 = 7 ∧
      (X86.WRITELONG Endian.big ⟨fun _ => 7, 10⟩ 0xdeadbeef).mem 14 = 7) ∧
    ((WRITEADDR ⟨fun _ => 7, 10⟩ 0xdeadbeef 3).mem 9 = 7 ∧
      ∃ d, X86.WRITEADDR Endian.big ⟨fun _ => 7, 10⟩ 0xdeadbeef 3 = some d ∧ d.mem 9 = 7) :=
  ⟨by decide,
   (writers_frame Endian.big ⟨fun _ => 7, 10⟩ 0xdeadbeef 14).2.2.1 (by decide),
   (writers_frame Endian.big ⟨fun _ => 7, 10⟩ 0xdeadbeef 9).2.2.2.2 3 (by decide) (by decide)⟩

/-- C17, counterexample: at the size `0x100000003`, which `int _wa_s = (s)`
converts to 3, the loop of the portable WRITEADDR stops after 3 iterations
and has written the 3 low bytes of the value; it does not run `0x100000003`
iterations, nor write the 8 bytes of the value followed by zero bytes. -/
theorem writeaddr_size_converted_to_int :
    int32 0x100000003 = 3 ∧
    (WRITEADDR_exec 10 ⟨fun _ => 0, 5⟩ 0x0102030405060708 0x100000003).map
        (fun r => (r.1, written ⟨fun _ => 0, 5⟩ r.2))
      = some (3, [0x08, 0x07, 0x06]) ∧
    (WRITEADDR_exec 10 ⟨fun _ => 0, 5⟩ 0x0102030405060708 0x100000003).map
        (fun r => r.1)
      ≠ some 0x100000003 := by
  decide

/-- C17, amended: for every size `0 <= s <= INT_MAX` the loop of the portable
WRITEADDR stops after exactly `s` iterations of its body (any bound above `s`
on the number of loop tests suffices, none up to `s` does) and leaves the
cursor of WRITEADDR; with `s = 0` nothing is written and the cursor is
unchanged, and with `s > 8` the bytes written are the 8 bytes of `v`, least
significant first, followed by `s - 8` zero bytes. -/
theorem writeaddr_loop_terminates (c : Cursor) (v s : Nat) (hs : (s : Int) ≤ INT_MAX) :
    (∀ fuel, s < fuel → WRITEADDR_exec fuel c v (s : Int) = some (s, WRITEADDR c v s)) ∧
    (∀ fuel, fuel ≤ s → WRITEADDR_exec fuel c v (s : Int) = none) ∧
    (s = 0 → WRITEADDR_exec 1 c v (s : Int) = some (0, c)) ∧
    WRITEADDR c v 0 = c ∧
    (8 < s → written c (WRITEADDR c v s)
      = ((List.range 8).map fun i => (v >>> (8 * i)) % 256) ++ List.replicate (s - 8) 0) := by
  refine ⟨?_, ?_, ?_, rfl, fun h8 => written_WRITEADDR_gt8 c v s h8⟩
  · intro fuel hf
    rw [WRITEADDR_exec_of_range c v s fuel hs]
    exact WRITEADDR_run_exact s fuel _ c hf
  · intro fuel hf
    rw [WRITEADDR_exec_of_range c v s fuel hs]
    exact WRITEADDR_run_short s fuel _ c hf
  · intro h0
    subst h0
    rw [WRITEADDR_exec_of_range c v 0 1 hs]
    exact WRITEADDR_run_exact 0 1 _ c (by omega)

/-- Witness for C17: size 10 with a value whose top byte is `0xff`: ten
iterations, the eight bytes of the value and two zero bytes. -/
theorem writeaddr_loop_terminates_witness :
    (((10 : Nat) : Int) ≤ INT_MAX ∧ 10 < 11 ∧ 8 < 10) ∧
    WRITEADDR_exec 11 ⟨fun _ => 0, 5⟩ 0xff02030405060708 ((10 : Nat) : Int)
      = some (10, WRITEADDR ⟨fun _ => 0, 5⟩ 0xff02030405060708 10) ∧
    written ⟨fun _ => 0, 5⟩ (WRITEADDR ⟨fun _ => 0, 5⟩ 0xff02030405060708 10)
      = [0x08, 0x07, 0x06, 0x05, 0x04, 0x03, 0x02, 0xff] ++ List.replicate (10 - 8) 0 :=
  ⟨by decide,
   (writeaddr_loop_terminates ⟨fun _ => 0, 5⟩ 0xff02030405060708 10 (by decide)).1 11
      (by decide),
   (writeaddr_loop_terminates ⟨fun _ => 0, 5⟩ 0xff02030405060708 10 (by decide)).2.2.2.2
      (by decide)⟩

end Nasmlib
